import Mathlib

/-!
# rchivelinks: a verification development

A shallow embedding of `archiver.go` and `rchivelinks.go`.

Go strings are embedded as Lean strings.  Go `error` values are embedded by
their shape (`errors.New` or a wrapping `fmt.Errorf`) together with the text
that `Error()` returns.  The Go standard library functions the program calls
are embedded next to the code that calls them; `url.Parse`, the HTTP client,
`json.Unmarshal`, the regular expression and the remote `Wayback` call are
parameters of the definitions that use them.

The goroutines of `run` are embedded as a transition system: a state holds
the cancellation cause of the context, the archiver, the goroutines started
by `Archive` and the loop of `run`; a move is one goroutine running `archive`
up to its hand-off, one case of a `select` proceeding, a goroutine blocking
in its `select`, or the cancellation of the context.  The body of `archive`
before its hand-off shares nothing with the other goroutines but `init`, which
`sync.Once` makes atomic, so it is one move.
-/

set_option linter.dupNamespace false

namespace Rchivelinks

/-! ## Go values -/

/-- A Go `error`: `errorString` is what `errors.New` builds, `wrapError` is
what `fmt.Errorf` builds for a format with one `%w` verb. -/
inductive GoError where
  | errorString (s : String)
  | wrapError (msg : String) (err : GoError)
deriving DecidableEq, Repr

/-- The method `Error()` of a Go error. -/
def GoError.Error : GoError → String
  | .errorString s => s
  | .wrapError msg _ => msg

/-- The function `errors.New`. -/
def errorsNew (text : String) : GoError := .errorString text

/-- The call `fmt.Errorf(pre + "%w", err)`: the message is the formatted text
before the verb followed by the message of the wrapped error. -/
def Errorf (pre : String) (err : GoError) : GoError :=
  .wrapError (pre ++ err.Error) err

/-- What a Go function of result type `(T, error)` does: return a value,
return a non-nil error, or stop with a run-time panic. -/
inductive Ret (α : Type) where
  | value (a : α)
  | err (e : GoError)
  | panic (msg : String)
deriving DecidableEq, Repr

/-! ## The package `strings` -/

/-- The function `strings.HasSuffix`. -/
def HasSuffix (s suf : String) : Bool := suf.data.isSuffixOf s.data

/-- The function `strings.HasPrefix`. -/
def HasPrefix (s pre : String) : Bool := pre.data.isPrefixOf s.data

/-- The function `strings.TrimPrefix`. -/
def TrimPrefix (s pre : String) : String :=
  if HasPrefix s pre then ⟨s.data.drop pre.data.length⟩ else s

/-- The function `strings.TrimSuffix`. -/
def TrimSuffix (s suf : String) : String :=
  if HasSuffix s suf then ⟨s.data.take (s.data.length - suf.data.length)⟩ else s

/-- The function `strings.Split` for a separator of one character, the only
kind this program uses. -/
def Split (s : String) (sep : Char) : List String :=
  (s.data.splitOn sep).map String.mk

/-- The function `strings.Join` for a separator of one character. -/
def Join (elems : List String) (sep : Char) : String :=
  ⟨[sep].intercalate (elems.map String.data)⟩

/-! ## The package `net/url` -/

/-- The fields of `url.URL` that this program sets or reads, and the two
that `url.Parse` fills from the rest of a URL. -/
structure URL where
  Scheme : String := ""
  Host : String := ""
  Path : String := ""
  RawQuery : String := ""
  Fragment : String := ""
deriving DecidableEq, Repr

/-- The escaping modes of `net/url` that `(*URL).String` uses. -/
inductive Encoding where
  | encodePath
  | encodeHost
  | encodeFragment
deriving DecidableEq, Repr

/-- The function `shouldEscape` of `net/url` on an ASCII character. -/
def shouldEscape (c : Char) (mode : Encoding) : Bool :=
  if c.isAlphanum then false
  else if mode = .encodeHost ∧
      c ∈ ['!', '$', '&', Char.ofNat 39, '(', ')', '*', '+', ',', ';', '=', ':', '[', ']',
        '<', '>', '"'] then false
  else if c ∈ ['-', '_', '.', '~'] then false
  else if c ∈ ['$', '&', '+', ',', '/', ':', ';', '=', '?', '@'] then
    match mode with
    | .encodePath => c == '?'
    | .encodeHost => true
    | .encodeFragment => false
  else if mode = .encodeFragment ∧ c ∈ ['!', '(', ')', '*'] then false
  else true

/-- The upper-case hexadecimal digit of a number below sixteen. -/
def upperhex (n : Nat) : Char :=
  if n < 10 then Char.ofNat (48 + n) else Char.ofNat (55 + n)

/-- The three characters `%XX` that stand for one byte. -/
def escapeByte (b : UInt8) : List Char :=
  ['%', upperhex (b.toNat / 16), upperhex (b.toNat % 16)]

/-- The function `escape` of `net/url` on one character: an ASCII character
is kept unless `shouldEscape` says otherwise, and every byte of a character
outside ASCII is escaped. -/
def escapeChar (mode : Encoding) (c : Char) : List Char :=
  if c.toNat < 128 then
    if shouldEscape c mode then escapeByte (UInt8.ofNat c.toNat) else [c]
  else (String.utf8EncodeChar c).flatMap escapeByte

/-- The function `escape` of `net/url` for the three modes above. -/
def escape (s : String) (mode : Encoding) : String :=
  ⟨s.data.flatMap (escapeChar mode)⟩

/-- The method `EscapedPath` for a URL whose `RawPath` is empty. -/
def URL.EscapedPath (u : URL) : String :=
  if u.Path = "*" then "*" else escape u.Path .encodePath

/-- The method `(*URL).String` for a URL without `Opaque`, `User`, `RawPath`,
`OmitHost`, `ForceQuery` and `RawFragment`. -/
def URL.String (u : URL) : String :=
  let scheme := if u.Scheme ≠ "" then u.Scheme ++ ":" else ""
  let authority :=
    if u.Scheme ≠ "" ∨ u.Host ≠ "" then
      (if u.Host ≠ "" ∨ u.Path ≠ "" then "//" else "") ++
        (if u.Host ≠ "" then escape u.Host .encodeHost else "")
    else ""
  let path := u.EscapedPath
  let slash := if path ≠ "" ∧ path.data.head? ≠ some '/' ∧ u.Host ≠ "" then "/" else ""
  let buf := scheme ++ authority ++ slash
  let dot :=
    if buf = "" ∧ ':' ∈ (path.data.splitOn '/').headD [] then "./" else ""
  let query := if u.RawQuery ≠ "" then "?" ++ u.RawQuery else ""
  let fragment := if u.Fragment ≠ "" then "#" ++ escape u.Fragment .encodeFragment else ""
  buf ++ dot ++ path ++ query ++ fragment

/-! ## `rchivelinks.go`: discovery -/

/-- The function `fixSourceURL`; `parse` is `url.Parse`. -/
def fixSourceURL (parse : String → Except GoError URL) (src : String) :
    Except GoError String :=
  match parse src with
  | .error err => .error (Errorf "parse: " err)
  | .ok p =>
    if !HasSuffix p.Host "reddit.com" then
      .error (errorsNew "source URL not a Reddit URL")
    else
      match Split (TrimPrefix p.Path "/") '/' with
      | p0 :: p1 :: p2 :: p3 :: _ =>
        if p2 ≠ "comments" then
          .error (errorsNew "source URL not for a post")
        else
          .ok (URL.String
            { Scheme := "https"
              Host := "www.reddit.com"
              Path := Join [p0, p1, p2, TrimSuffix p3 ".json" ++ ".json"] '/' })
      | _ => .error (errorsNew "source URL not for a specific post")

/-- One child of a listing: the field `data.selftext`. -/
structure Child where
  Selftext : String
deriving DecidableEq, Repr

/-- One element of the decoded response: the field `data.children`. -/
structure Listing where
  Children : List Child
deriving DecidableEq, Repr

/-- What the HTTP exchange of `getLinks` comes to: one of its three calls
fails, or the body is read. -/
inductive Response where
  | createRequest (err : GoError)
  | get (err : GoError)
  | read (err : GoError)
  | body (b : String)
deriving DecidableEq, Repr

/-- The externals of `getLinks`: `url.Parse`, the HTTP exchange for a
request URL, `json.Unmarshal` into the anonymous struct slice, and
`urlRE.FindAllStringSubmatch(s, -1)`. -/
structure Env where
  parse : String → Except GoError URL
  http : String → Response
  unmarshal : String → Except GoError (List Listing)
  findAll : String → List (List String)

/-- The text of Go's run-time error for `xs[i]` out of range. -/
def indexPanic (i len : Nat) : String :=
  "runtime error: index out of range [" ++ toString i ++ "] with length " ++ toString len

/-- The loop `for _, m := range matches { links = append(links, m[1]) }`. -/
def appendLinks (links : List String) : List (List String) → Ret (List String)
  | [] => .value links
  | m :: rest =>
    match m.get? 1 with
    | none => .panic (indexPanic 1 m.length)
    | some l => appendLinks (links ++ [l]) rest

/-- The function `getLinks`. -/
def getLinks (env : Env) (src : String) : Ret (List String) :=
  match fixSourceURL env.parse src with
  | .error err =>
    .err (Errorf "could not determine necessary info from source URL: " err)
  | .ok src =>
    match env.http src with
    | .createRequest err => .err (Errorf "create request: " err)
    | .get err => .err (Errorf "get: " err)
    | .read err => .err (Errorf "read: " err)
    | .body body =>
      match env.unmarshal body with
      | .error err => .err (Errorf "unmarshal: " err)
      | .ok data =>
        match data with
        | [] => .panic (indexPanic 0 0)
        | d :: _ =>
          match d.Children with
          | [] => .panic (indexPanic 0 0)
          | c :: _ => appendLinks [] (env.findAll c.Selftext)

/-! ## `archiver.go` -/

/-- The struct `Result`. -/
structure Result where
  Link : String
  Result : String
deriving DecidableEq, Repr

/-- A channel made by `make`, named by its allocation number; a `nil`
channel is `none`. -/
abbrev Chan := Nat

/-- The struct `Archiver`: the flag of its `sync.Once` and its two channel
fields.  The zero value is what `run` builds. -/
structure Archiver where
  once : Bool := false
  results : Option Chan := none
  errors : Option Chan := none
deriving DecidableEq, Repr

/-- The method `init`; `heap` is the number of the next channel `make`
returns. -/
def Archiver.init (a : Archiver) (heap : Nat) : Archiver × Nat :=
  if a.once then (a, heap)
  else ({ a with once := true, results := some heap, errors := some (heap + 1) }, heap + 2)

/-- A value that travels on one of the two channels. -/
inductive Outcome where
  | result (r : Result)
  | error (err : GoError)
deriving DecidableEq, Repr

/-- The send case of a hand-off `select`: the channel operand and the value,
both evaluated on entering the statement. -/
structure Send where
  ch : Option Chan
  val : Outcome
deriving DecidableEq, Repr

/-- The method `result`: a `select` between `<-ctx.Done()` and this send. -/
def Archiver.result (a : Archiver) (link result : String) : Send :=
  ⟨a.results, .result ⟨link, result⟩⟩

/-- The method `error`: a `select` between `<-ctx.Done()` and this send. -/
def Archiver.error (a : Archiver) (err : GoError) : Send :=
  ⟨a.errors, .error err⟩

/-- The method `Results`. -/
def Archiver.Results (a : Archiver) (heap : Nat) : Option Chan × Archiver × Nat :=
  let r := a.init heap
  (r.1.results, r.1, r.2)

/-- The method `Errors`. -/
def Archiver.Errors (a : Archiver) (heap : Nat) : Option Chan × Archiver × Nat :=
  let r := a.init heap
  (r.1.errors, r.1, r.2)

/-- What the method `archive` has done when it reaches its hand-off: the
archiver and allocator after `init`, the URLs it called `Wayback` with, and
the hand-off it enters. -/
structure Archived where
  arc : Archiver
  heap : Nat
  calls : List URL
  send : Send
deriving DecidableEq, Repr

/-- The method `archive` up to its hand-off; `parse` is `url.Parse`,
`wayback` is `a.Archiver.Wayback` and `ctx` is the cancellation cause of the
context when the call is made (`none` while the context is live). -/
def Archiver.archive (parse : String → Except GoError URL)
    (wayback : Option GoError → URL → Except GoError String)
    (ctx : Option GoError) (a : Archiver) (heap : Nat) (link : String) : Archived :=
  let r := a.init heap
  match parse link with
  | .error err =>
    ⟨r.1, r.2, [], r.1.error (Errorf (link ++ " -> parse: ") err)⟩
  | .ok u =>
    match wayback ctx u with
    | .error err =>
      ⟨r.1, r.2, [u], r.1.error (Errorf (link ++ " -> archive: ") err)⟩
    | .ok result =>
      ⟨r.1, r.2, [u], r.1.result link result⟩

/-! ## The goroutines of `run` -/

/-- Where a goroutine started by `Archive` stands: not yet run, entering the
`select` of its hand-off, blocked in that `select`, or returned, either after
its send completed or through the case `<-ctx.Done()`. -/
inductive Pc where
  | spawned
  | select (s : Send)
  | blocked (s : Send)
  | sent (o : Outcome)
  | dropped (o : Outcome)
deriving DecidableEq, Repr

/-- One goroutine `go a.archive(ctx, link)`, with the URLs it has called
`Wayback` with. -/
structure Worker where
  link : String
  pc : Pc
  calls : List URL
deriving DecidableEq, Repr

/-- Where the loop of `run` stands: entering its `select`, blocked in it on
the two channels `arc.Results()` and `arc.Errors()` returned, or returned
from `run` with an error or `nil`. -/
inductive MainPc where
  | select
  | blocked (results errors : Option Chan)
  | returned (err : Option GoError)
deriving DecidableEq, Repr

/-- The loop of `run`: the bound `len(links)+1`, the counter `i`, what was
written to standard output and to standard error, and the values received
so far. -/
structure Collector where
  n : Nat
  i : Nat
  pc : MainPc
  stdout : List String
  stderr : List String
  received : List Outcome
deriving DecidableEq, Repr

/-- What one `select` of the loop observes. -/
inductive Event where
  | done (cause : GoError)
  | recv (o : Outcome)
deriving DecidableEq, Repr

/-- The loop condition `i < len(links)+1`, and `return nil` behind the
loop. -/
def Collector.loop (c : Collector) : Collector :=
  if c.i < c.n then { c with pc := .select } else { c with pc := .returned none }

/-- The body of the `select` of `run` for the case that was chosen, followed
by `i++` and the loop condition. -/
def Collector.observe (c : Collector) : Event → Collector
  | .done cause => { c with pc := .returned (some cause) }
  | .recv (.result result) =>
    Collector.loop
      { c with
        stdout := c.stdout ++ [result.Link ++ " -> " ++ result.Result ++ "\n"]
        received := c.received ++ [.result result]
        i := c.i + 1 }
  | .recv (.error err) =>
    Collector.loop
      { c with
        stderr := c.stderr ++ [err.Error ++ "\n"]
        received := c.received ++ [.error err]
        i := c.i + 1 }

/-- The loop of `run` started with bound `n`. -/
def Collector.start (n : Nat) : Collector :=
  Collector.loop ⟨n, 0, .select, [], [], []⟩

/-- The loop of `run` fed with what its successive `select`s observe, until it
returns or the events end. -/
def Collector.collect (c : Collector) : List Event → Collector
  | [] => c
  | e :: es =>
    match c.pc with
    | .returned _ => c
    | _ => Collector.collect (c.observe e) es

/-- The program after `run` has started its goroutines: the cancellation
cause of `ctx` (`none` while `ctx.Done()` is open), the archiver `arc`, the
channel allocator, the goroutines, and the loop. -/
structure System where
  ctx : Option GoError
  arc : Archiver
  heap : Nat
  workers : List Worker
  main : Collector
deriving DecidableEq, Repr

/-- The method `Archive`: the statement `go a.archive(ctx, link)` adds one
goroutine. -/
def System.Archive (s : System) (link : String) : System :=
  { s with workers := s.workers ++ [⟨link, .spawned, []⟩] }

/-- Lines 104 to 117 of `run`: the zero archiver, `arc.Archive(ctx, src)`,
`arc.Archive(ctx, link)` for each link in order, and the loop about to
start. -/
def spawn (ctx : Option GoError) (src : String) (links : List String) : System :=
  links.foldl System.Archive
    (System.Archive
      { ctx := ctx
        arc := {}
        heap := 0
        workers := []
        main := Collector.start (links.length + 1) }
      src)

/-- The function `run` up to its loop: the error it returns when discovery
fails, else the program with its goroutines started. -/
def run (env : Env) (ctx : Option GoError) (src : String) : Ret System :=
  match getLinks env src with
  | .err err => .err (Errorf "get links from post: " err)
  | .panic msg => .panic msg
  | .value links => .value (spawn ctx src links)

/-- A send on an unbuffered channel can proceed when a receiver waits on that
same channel: `results` for a `Result`, `errors` for an error.  A `nil`
channel never can. -/
def canSync (s : Send) (results errors : Option Chan) : Bool :=
  match s.val with
  | .result _ => s.ch.isSome && s.ch == results
  | .error _ => s.ch.isSome && s.ch == errors

/-- Closing `ctx.Done()` wakes a goroutine blocked in its hand-off; it leaves
through the case `<-ctx.Done()`. -/
def Worker.wake (w : Worker) : Worker :=
  match w.pc with
  | .blocked s => { w with pc := .dropped s.val }
  | _ => w

/-- Closing `ctx.Done()` wakes the loop blocked in its `select`; it returns
`context.Cause(ctx)`. -/
def Collector.wake (c : Collector) (cause : GoError) : Collector :=
  match c.pc with
  | .blocked _ _ => c.observe (.done cause)
  | _ => c

/-- The moves of the program.  A `select` picks any one of its cases that
can proceed and blocks when none can, so each case is a move of its own. -/
inductive Action where
  /-- The context is cancelled with a cause. -/
  | cancel (cause : GoError)
  /-- Goroutine `k` runs `archive` up to its hand-off. -/
  | run (k : Nat)
  /-- Goroutine `k` enters its `select` and takes `<-ctx.Done()`. -/
  | done (k : Nat)
  /-- Goroutine `k` enters its `select` and its send proceeds. -/
  | send (k : Nat)
  /-- Goroutine `k` enters its `select` and blocks. -/
  | park (k : Nat)
  /-- The loop enters its `select` and takes `<-ctx.Done()`. -/
  | mainDone
  /-- The loop enters its `select` and receives from goroutine `k`. -/
  | recv (k : Nat)
  /-- The loop enters its `select` and blocks. -/
  | mainPark
deriving DecidableEq, Repr

/-- Whether a move is a cancellation. -/
def Action.isCancel : Action → Bool
  | .cancel _ => true
  | _ => false

/-- Replace the state of goroutine `k`. -/
def System.setPc (s : System) (k : Nat) (w : Worker) (pc : Pc) : System :=
  { s with workers := s.workers.set k { w with pc := pc } }

/-- The channel operands `arc.Results()` and `arc.Errors()` of the `select`
of `run`, evaluated in source order on entering the statement. -/
def System.enterSelect (s : System) : Option Chan × Option Chan × System :=
  let r := s.arc.Results s.heap
  let e := r.2.1.Errors r.2.2
  (r.1, e.1, { s with arc := e.2.1, heap := e.2.2 })

/-- One move of the program, `none` when the move is not possible.

A `select` evaluates its channel operands on entry.  Its case `<-ctx.Done()`
can proceed once the context is cancelled; its send or receive on an
unbuffered channel can proceed when the other side is blocked in a `select`
on that same channel.  The goroutine takes any one case that can proceed and
blocks when none can.  A blocked goroutine goes on when the `select` of
another goroutine proceeds with it, or when the context is cancelled, which
wakes every blocked goroutine through its case `<-ctx.Done()`. -/
def step (parse : String → Except GoError URL)
    (wayback : Option GoError → URL → Except GoError String)
    (s : System) : Action → Option System
  | .cancel cause =>
    match s.ctx with
    | some _ => none
    | none =>
      some { s with
        ctx := some cause
        workers := s.workers.map Worker.wake
        main := s.main.wake cause }
  | .run k =>
    match s.workers.get? k with
    | some w =>
      match w.pc with
      | .spawned =>
        let r := s.arc.archive parse wayback s.ctx s.heap w.link
        some { s with
          arc := r.arc
          heap := r.heap
          workers := s.workers.set k { w with pc := .select r.send, calls := w.calls ++ r.calls } }
      | _ => none
    | none => none
  | .done k =>
    match s.workers.get? k with
    | some w =>
      match w.pc, s.ctx with
      | .select snd, some _ => some (s.setPc k w (.dropped snd.val))
      | _, _ => none
    | none => none
  | .send k =>
    match s.workers.get? k with
    | some w =>
      match w.pc, s.main.pc with
      | .select snd, .blocked results errors =>
        if canSync snd results errors then
          some { s.setPc k w (.sent snd.val) with main := s.main.observe (.recv snd.val) }
        else none
      | _, _ => none
    | none => none
  | .park k =>
    match s.workers.get? k with
    | some w =>
      match w.pc with
      | .select snd =>
        let ready :=
          match s.main.pc with
          | .blocked results errors => canSync snd results errors
          | _ => false
        if s.ctx.isNone ∧ ready = false then some (s.setPc k w (.blocked snd)) else none
      | _ => none
    | none => none
  | .mainDone =>
    match s.main.pc, s.ctx with
    | .select, some cause =>
      let e := s.enterSelect
      some { e.2.2 with main := s.main.observe (.done cause) }
    | _, _ => none
  | .recv k =>
    match s.main.pc, s.workers.get? k with
    | .select, some w =>
      match w.pc with
      | .blocked snd =>
        let e := s.enterSelect
        if canSync snd e.1 e.2.1 then
          some { e.2.2.setPc k w (.sent snd.val) with main := s.main.observe (.recv snd.val) }
        else none
      | _ => none
    | _, _ => none
  | .mainPark =>
    match s.main.pc with
    | .select =>
      let e := s.enterSelect
      let ready := s.workers.any fun w =>
        match w.pc with
        | .blocked snd => canSync snd e.1 e.2.1
        | _ => false
      if s.ctx.isNone ∧ ready = false then
        some { e.2.2 with main := { s.main with pc := .blocked e.1 e.2.1 } }
      else none
    | _ => none

/-- A run of the program: the moves of a schedule one after the other, `none`
when one of them is not possible. -/
def exec (parse : String → Except GoError URL)
    (wayback : Option GoError → URL → Except GoError String) :
    System → List Action → Option System
  | s, [] => some s
  | s, a :: as =>
    match step parse wayback s a with
    | none => none
    | some t => exec parse wayback t as

/-! ## Sequences of calls on one archiver -/

/-- The three ways into `init`: the two accessors and a goroutine running
`archive` (with the state of the context at its `Wayback` call). -/
inductive Call where
  | Results
  | Errors
  | archive (ctx : Option GoError) (link : String)
deriving DecidableEq, Repr

/-- The archiver and the allocator after one call. -/
def Archiver.call (parse : String → Except GoError URL)
    (wayback : Option GoError → URL → Except GoError String)
    (st : Archiver × Nat) : Call → Archiver × Nat
  | .Results => (st.1.Results st.2).2
  | .Errors => (st.1.Errors st.2).2
  | .archive ctx link =>
    ((st.1.archive parse wayback ctx st.2 link).arc, (st.1.archive parse wayback ctx st.2 link).heap)

/-- The archiver and the allocator after a sequence of calls. -/
def Archiver.calls (parse : String → Except GoError URL)
    (wayback : Option GoError → URL → Except GoError String)
    (st : Archiver × Nat) (cs : List Call) : Archiver × Nat :=
  cs.foldl (Archiver.call parse wayback) st

/-- The values a list of observations carries. -/
def outcomes : List Event → List Outcome
  | [] => []
  | .done _ :: es => outcomes es
  | .recv o :: es => o :: outcomes es

/-- Whether an observation is the cancellation. -/
def Event.isDone : Event → Bool
  | .done _ => true
  | .recv _ => false

/-! ## Concrete externals for the checks at explicit inputs -/

/-- What `url.Parse` returns on the strings used in the checks below. -/
def parseTable : List (String × URL) :=
  [ ("https://notreddit.com/r/golang/comments/abc123/title",
      ⟨"https", "notreddit.com", "/r/golang/comments/abc123/title", "", ""⟩),
    ("https://old.reddit.com/r/golang/comments/abc123/title/?sort=new#top",
      ⟨"https", "old.reddit.com", "/r/golang/comments/abc123/title/", "sort=new", "top"⟩),
    ("https://www.reddit.com/r/golang/comments/abc123.json",
      ⟨"https", "www.reddit.com", "/r/golang/comments/abc123.json", "", ""⟩),
    ("https://reddit.com//a/comments/b", ⟨"https", "reddit.com", "//a/comments/b", "", ""⟩),
    ("https://www.reddit.com/a/comments/b.json",
      ⟨"https", "www.reddit.com", "/a/comments/b.json", "", ""⟩),
    ("https://reddit.com/r/a b/comments/c", ⟨"https", "reddit.com", "/r/a b/comments/c", "", ""⟩),
    ("http://a.example", ⟨"http", "a.example", "", "", ""⟩),
    ("http://b.example", ⟨"http", "b.example", "", "", ""⟩) ]

/-- A stand-in for `url.Parse`: the strings of the table parse to the URLs
of the table, any other string is rejected with the error `url.Parse` has
for a control character. -/
def exampleParse (s : String) : Except GoError URL :=
  match parseTable.lookup s with
  | some u => .ok u
  | none => .error (errorsNew "net/url: invalid control character in URL")

/-- A stand-in for `Wayback`: it rejects `b.example` and archives the rest,
and fails with the cause once the context is cancelled. -/
def exampleWayback (ctx : Option GoError) (u : URL) : Except GoError String :=
  match ctx with
  | some cause => .error cause
  | none =>
    if u.Host = "b.example" then .error (errorsNew "remote rejected")
    else if u.Host = "a.example" then .ok "http://archive.example/a"
    else .ok ("http://archive.example/" ++ u.Host ++ u.Path)

/-- Externals for `getLinks` whose response decodes to the given data. -/
def exampleEnv (data : List Listing) : Env :=
  { parse := exampleParse
    http := fun _ => .body "response"
    unmarshal := fun _ => .ok data
    findAll := fun s => (s.data.splitOn ' ').map fun l => ["[" ++ ⟨l⟩ ++ "]", ⟨l⟩, ""] }

/-- The fourth path segment of the result: the suffix `.json` is added unless
the segment already ends in it. -/
def withJSON (s : String) : String := if HasSuffix s ".json" then s else s ++ ".json"

/-- A string of ASCII characters none of which `net/url` escapes in a path. -/
def NoEscape (s : String) : Prop :=
  ∀ c ∈ s.data, c.toNat < 128 ∧ shouldEscape c .encodePath = false

/-! ## What holds in every state of the program -/

/-- The archiver once `init` has run, when the allocator started from zero. -/
def arc1 : Archiver := ⟨true, some 0, some 1⟩

/-- What `archive` does for a link in the program of `run`, where the
allocator starts from zero; `c` is the state of the context at its `Wayback`
call. -/
def handoff (parse : String → Except GoError URL)
    (wayback : Option GoError → URL → Except GoError String)
    (c : Option GoError) (link : String) : Archived :=
  Archiver.archive parse wayback c {} 0 link

/-- The value a goroutine has delivered. -/
def Pc.sentOutcome : Pc → Option Outcome
  | .sent o => some o
  | _ => none

/-- Whether a goroutine is blocked in its hand-off. -/
def Pc.isBlocked : Pc → Bool
  | .blocked _ => true
  | _ => false

/-- Whether the loop is blocked in its `select`. -/
def MainPc.isBlocked : MainPc → Bool
  | .blocked _ _ => true
  | _ => false

/-- Whether a goroutine left its hand-off through `<-ctx.Done()`. -/
def Pc.isDropped : Pc → Bool
  | .dropped _ => true
  | _ => false

/-- A goroutine is where `archive` takes it: not yet run and without a
`Wayback` call, or in or behind the one hand-off `archive` enters for its
link, with the `Wayback` calls `archive` makes for it. -/
def Worker.ok (parse : String → Except GoError URL)
    (wayback : Option GoError → URL → Except GoError String) (w : Worker) : Prop :=
  (w.pc = .spawned ∧ w.calls = []) ∨
    ∃ c : Option GoError,
      w.calls = (handoff parse wayback c w.link).calls ∧
        (w.pc = .select (handoff parse wayback c w.link).send ∨
          w.pc = .blocked (handoff parse wayback c w.link).send ∨
          w.pc = .sent (handoff parse wayback c w.link).send.val ∨
          w.pc = .dropped (handoff parse wayback c w.link).send.val)

/-- An outcome answers a submitted link: a `Result` carries the link, the
message of an error contains it. -/
def Matches (link : String) : Outcome → Prop
  | .result r => r.Link = link
  | .error err => link.data <:+: err.Error.data

/-- The number of moves a goroutine has left at most. -/
def Worker.weight (w : Worker) : Nat :=
  match w.pc with
  | .spawned => 3
  | .select _ => 2
  | .blocked _ => 1
  | .sent _ => 0
  | .dropped _ => 0

/-- The number of moves the loop has left at most. -/
def Collector.weight (c : Collector) : Nat :=
  match c.pc with
  | .select => 2 * (c.n - c.i) + 2
  | .blocked _ _ => 2 * (c.n - c.i) + 1
  | .returned _ => 0

/-- The number of moves other than cancellation the program has left at
most. -/
def System.weight (s : System) : Nat :=
  (s.workers.map Worker.weight).sum + s.main.weight

/-- What holds in every state of the program `run` starts for `links` (the
source URL first). -/
structure Inv (parse : String → Except GoError URL)
    (wayback : Option GoError → URL → Except GoError String)
    (links : List String) (s : System) : Prop where
  arc : (s.arc = {} ∧ s.heap = 0 ∧ (∀ w ∈ s.workers, w.pc = .spawned) ∧
      s.main.pc.isBlocked = false) ∨ (s.arc = arc1 ∧ s.heap = 2)
  subs : s.workers.map Worker.link = links
  ok : ∀ w ∈ s.workers, w.ok parse wayback
  mainCh : ∀ cr ce, s.main.pc = .blocked cr ce → cr = some 0 ∧ ce = some 1
  awake : s.ctx ≠ none →
    (∀ w ∈ s.workers, w.pc.isBlocked = false) ∧ s.main.pc.isBlocked = false
  excl : s.main.pc.isBlocked = true → ∀ w ∈ s.workers, w.pc.isBlocked = false
  n : s.main.n = links.length
  i : s.main.i = s.main.received.length
  perm : s.main.received.Perm (s.workers.filterMap fun w => w.pc.sentOutcome)
  mpc : match s.main.pc with
    | .select => s.main.i < s.main.n
    | .blocked _ _ => s.main.i < s.main.n
    | .returned none => s.main.i = s.main.n
    | .returned (some c) => s.ctx = some c
  live : s.ctx = none → ∀ w ∈ s.workers, w.pc.isDropped = false

/-! ## Lazy initialisation -/

theorem init_of_zero (h : Nat) :
    Archiver.init {} h = (⟨true, some h, some (h + 1)⟩, h + 2) := rfl

theorem init_of_once (g : Nat) (r e : Option Chan) :
    Archiver.init ⟨true, r, e⟩ g = (⟨true, r, e⟩, g) := rfl

theorem archive_arc (parse : String → Except GoError URL)
    (wayback : Option GoError → URL → Except GoError String)
    (ctx : Option GoError) (a : Archiver) (h : Nat) (link : String) :
    (a.archive parse wayback ctx h link).arc = (a.init h).1 ∧
      (a.archive parse wayback ctx h link).heap = (a.init h).2 := by
  unfold Archiver.archive
  dsimp only
  split
  · exact ⟨rfl, rfl⟩
  · split <;> exact ⟨rfl, rfl⟩

theorem archive_send_ch (parse : String → Except GoError URL)
    (wayback : Option GoError → URL → Except GoError String)
    (ctx : Option GoError) (a : Archiver) (h : Nat) (link : String) :
    (a.archive parse wayback ctx h link).send.ch =
      match (a.archive parse wayback ctx h link).send.val with
      | .result _ => (a.init h).1.results
      | .error _ => (a.init h).1.errors := by
  unfold Archiver.archive
  dsimp only
  split
  · rfl
  · split <;> rfl

theorem call_eq_init (parse : String → Except GoError URL)
    (wayback : Option GoError → URL → Except GoError String)
    (st : Archiver × Nat) (c : Call) :
    Archiver.call parse wayback st c = st.1.init st.2 := by
  cases c with
  | Results => rfl
  | Errors => rfl
  | archive ctx link =>
    have h := archive_arc parse wayback ctx st.1 st.2 link
    simp only [Archiver.call]
    exact Prod.ext h.1 h.2

theorem calls_of_once (parse : String → Except GoError URL)
    (wayback : Option GoError → URL → Except GoError String)
    (g : Nat) (r e : Option Chan) (cs : List Call) :
    Archiver.calls parse wayback (⟨true, r, e⟩, g) cs = (⟨true, r, e⟩, g) := by
  induction cs with
  | nil => rfl
  | cons c cs ih =>
    simp only [Archiver.calls, List.foldl_cons, call_eq_init, init_of_once]
    exact ih

theorem calls_of_zero (parse : String → Except GoError URL)
    (wayback : Option GoError → URL → Except GoError String)
    (h : Nat) (cs : List Call) (hcs : cs ≠ []) :
    Archiver.calls parse wayback ({}, h) cs = (⟨true, some h, some (h + 1)⟩, h + 2) := by
  cases cs with
  | nil => exact absurd rfl hcs
  | cons c cs =>
    simp only [Archiver.calls, List.foldl_cons, call_eq_init, init_of_zero]
    exact calls_of_once parse wayback (h + 2) (some h) (some (h + 1)) cs

/-- C5. Lazy initialisation is idempotent.  After any sequence `cs` of calls
to `Results`, `Errors` and `archive` on the zero archiver with next channel
`h`: once one call was made the fields hold the channels `h` and `h + 1` and
two channels were allocated in all, any further call leaves the archiver and
the allocator as they are, `Results` returns channel `h`, `Errors` returns
channel `h + 1`, these two differ, and the hand-off of a goroutine sends a
`Result` on channel `h` and an error on channel `h + 1`. -/
theorem lazy_init_idempotent (parse : String → Except GoError URL)
    (wayback : Option GoError → URL → Except GoError String)
    (h : Nat) (cs : List Call) :
    (cs ≠ [] →
      Archiver.calls parse wayback ({}, h) cs = (⟨true, some h, some (h + 1)⟩, h + 2)) ∧
    (cs ≠ [] → ∀ c : Call,
      Archiver.calls parse wayback ({}, h) (cs ++ [c]) =
        Archiver.calls parse wayback ({}, h) cs) ∧
    ((Archiver.calls parse wayback ({}, h) cs).1.Results
        (Archiver.calls parse wayback ({}, h) cs).2).1 = some h ∧
    ((Archiver.calls parse wayback ({}, h) cs).1.Errors
        (Archiver.calls parse wayback ({}, h) cs).2).1 = some (h + 1) ∧
    (some h : Option Chan) ≠ some (h + 1) ∧
    ∀ (ctx : Option GoError) (link : String),
      ((Archiver.calls parse wayback ({}, h) cs).1.archive parse wayback ctx
          (Archiver.calls parse wayback ({}, h) cs).2 link).send.ch =
        match ((Archiver.calls parse wayback ({}, h) cs).1.archive parse wayback ctx
          (Archiver.calls parse wayback ({}, h) cs).2 link).send.val with
        | .result _ => some h
        | .error _ => some (h + 1) := by
  have key : ((Archiver.calls parse wayback ({}, h) cs).1.init
      (Archiver.calls parse wayback ({}, h) cs).2).1 = ⟨true, some h, some (h + 1)⟩ := by
    by_cases hcs : cs = []
    · subst hcs; rfl
    · rw [calls_of_zero parse wayback h cs hcs]; rfl
  refine ⟨calls_of_zero parse wayback h cs, ?_, ?_, ?_, by simp, ?_⟩
  · intro hcs c
    rw [Archiver.calls, List.foldl_append]
    show Archiver.call parse wayback (Archiver.calls parse wayback ({}, h) cs) c = _
    rw [calls_of_zero parse wayback h cs hcs, call_eq_init]
    rfl
  · show ((Archiver.calls parse wayback ({}, h) cs).1.init _).1.results = _
    rw [key]
  · show ((Archiver.calls parse wayback ({}, h) cs).1.init _).1.errors = _
    rw [key]
  · intro ctx link
    rw [archive_send_ch, key]

/-- C5, at an explicit sequence of calls. -/
theorem lazy_init_idempotent_witness :
    Archiver.calls exampleParse exampleWayback ({}, 0)
        [.Results, .archive none "http://a.example", .Errors] = (⟨true, some 0, some 1⟩, 2) ∧
      ∀ c : Call,
        Archiver.calls exampleParse exampleWayback ({}, 0)
            ([.Results, .archive none "http://a.example", .Errors] ++ [c]) =
          Archiver.calls exampleParse exampleWayback ({}, 0)
            [.Results, .archive none "http://a.example", .Errors] :=
  ⟨(lazy_init_idempotent exampleParse exampleWayback 0
      [.Results, .archive none "http://a.example", .Errors]).1 (by decide),
    (lazy_init_idempotent exampleParse exampleWayback 0
      [.Results, .archive none "http://a.example", .Errors]).2.1 (by decide)⟩

/-! ## The goroutines `run` starts -/

theorem foldl_Archive (links : List String) : ∀ s : System,
    links.foldl System.Archive s =
      { s with workers := s.workers ++ links.map fun l => ⟨l, .spawned, []⟩ } := by
  induction links with
  | nil => intro s; simp
  | cons l ls ih => intro s; simp [List.foldl_cons, ih, System.Archive]

theorem spawn_eq (ctx : Option GoError) (src : String) (links : List String) :
    spawn ctx src links =
      { ctx := ctx
        arc := {}
        heap := 0
        workers := (src :: links).map fun l => ⟨l, .spawned, []⟩
        main := Collector.start (links.length + 1) } := by
  rw [spawn, foldl_Archive]
  simp [System.Archive]

/-! ## The loop of `run` -/

theorem observe_recv (c : Collector) (o : Outcome) :
    (c.observe (.recv o)).n = c.n ∧ (c.observe (.recv o)).i = c.i + 1 ∧
      (c.observe (.recv o)).received = c.received ++ [o] ∧
      (c.observe (.recv o)).pc = if c.i + 1 < c.n then .select else .returned none := by
  cases o <;> (simp only [Collector.observe, Collector.loop]; split <;> simp_all)

theorem collect_returned (c : Collector) (evs : List Event) (err : Option GoError)
    (h : c.pc = .returned err) : c.collect evs = c := by
  cases evs with
  | nil => rfl
  | cons e es => simp [Collector.collect, h]

theorem collect_append (c : Collector) (xs ys : List Event) :
    c.collect (xs ++ ys) = (c.collect xs).collect ys := by
  induction xs generalizing c with
  | nil => rfl
  | cons e es ih =>
    cases hpc : c.pc with
    | returned err =>
      rw [collect_returned c _ err hpc, collect_returned c _ err hpc,
        collect_returned c _ err hpc]
    | select => simp only [List.cons_append, Collector.collect, hpc]; exact ih _
    | blocked r e => simp only [List.cons_append, Collector.collect, hpc]; exact ih _

theorem collect_recvs (evs : List Event) : ∀ (c : Collector), c.pc = .select → c.i < c.n →
    (∀ e ∈ evs, e.isDone = false) → c.i + evs.length ≤ c.n →
    (c.collect evs).n = c.n ∧ (c.collect evs).i = c.i + evs.length ∧
      (c.collect evs).received = c.received ++ outcomes evs ∧
      (c.collect evs).pc = if c.i + evs.length < c.n then .select else .returned none := by
  induction evs with
  | nil => intro c hpc hi _ _; simp [Collector.collect, outcomes, hpc, hi]
  | cons e es ih =>
    intro c hpc hi hnd hlen
    cases e with
    | done cause => simpa [Event.isDone] using hnd (.done cause)
    | recv o =>
      obtain ⟨hn, hi', hr, hp⟩ := observe_recv c o
      simp only [List.length_cons] at hlen
      have hstep : c.collect (.recv o :: es) = (c.observe (.recv o)).collect es := by
        simp [Collector.collect, hpc]
      rw [hstep]
      by_cases hlt : c.i + 1 < c.n
      · rw [if_pos hlt] at hp
        obtain ⟨h1, h2, h3, h4⟩ := ih (c.observe (.recv o)) hp (by omega)
          (fun e he => hnd e (List.mem_cons_of_mem _ he)) (by omega)
        refine ⟨by omega, by simp only [List.length_cons]; omega, ?_, ?_⟩
        · rw [h3, hr]; simp [outcomes]
        · rw [h4, hi', hn]; simp only [List.length_cons]
          congr 1; apply propext; constructor <;> intro <;> omega
      · rw [if_neg hlt] at hp
        have hes : es = [] := by
          cases es with
          | nil => rfl
          | cons _ _ => simp only [List.length_cons] at hlen; omega
        subst hes
        simp only [Collector.collect, List.length_cons, List.length_nil, outcomes]
        refine ⟨hn, by omega, hr, ?_⟩
        rw [hp, if_neg (by omega)]

/-- C7. The loop of `run` ends early only on cancellation.  Fed with the
observations `evs` of its successive `select`s: when the first cancellation
is observed in iteration `pre.length`, an iteration of the loop, the loop
returns its cause having received exactly the values observed before it and
nothing behind it; when the first `len(links)+1` observations hold no
cancellation the loop returns `nil` after exactly `len(links)+1` iterations
and has received all their values.  Errors among the values play no part. -/
theorem collector_stops_only_on_cancel (ctx : Option GoError) (src : String)
    (links : List String) (evs : List Event) :
    (∀ (pre post : List Event) (cause : GoError),
      evs = pre ++ .done cause :: post → (∀ e ∈ pre, e.isDone = false) →
      pre.length < links.length + 1 →
      (((spawn ctx src links).main.collect evs).pc = .returned (some cause) ∧
        ((spawn ctx src links).main.collect evs).i = pre.length ∧
        ((spawn ctx src links).main.collect evs).received = outcomes pre)) ∧
    ((∀ e ∈ evs.take (links.length + 1), e.isDone = false) →
      links.length + 1 ≤ evs.length →
      (((spawn ctx src links).main.collect evs).pc = .returned none ∧
        ((spawn ctx src links).main.collect evs).i = links.length + 1 ∧
        ((spawn ctx src links).main.collect evs).received =
          outcomes (evs.take (links.length + 1)))) := by
  have hstart : (spawn ctx src links).main =
      ⟨links.length + 1, 0, .select, [], [], []⟩ := by
    simp [spawn_eq, Collector.start, Collector.loop]
  constructor
  · intro pre post cause hevs hnd hlen
    rw [hevs, collect_append, hstart]
    obtain ⟨h1, h2, h3, h4⟩ := collect_recvs pre ⟨links.length + 1, 0, .select, [], [], []⟩ rfl
      (by simp) hnd (by simp only [Nat.zero_add]; exact hlen.le)
    simp only [Nat.zero_add, List.nil_append] at h2 h3 h4
    rw [if_pos hlen] at h4
    have hd : (Collector.collect ⟨links.length + 1, 0, .select, [], [], []⟩ pre).collect
        (.done cause :: post) =
        (Collector.collect ⟨links.length + 1, 0, .select, [], [], []⟩ pre).observe
          (.done cause) := by
      simp only [Collector.collect, h4]
      exact collect_returned _ _ (some cause) rfl
    rw [hd]
    exact ⟨rfl, h2, h3⟩
  · intro hnd hlen
    have hsplit : evs = evs.take (links.length + 1) ++ evs.drop (links.length + 1) :=
      (List.take_append_drop _ _).symm
    have htl : (evs.take (links.length + 1)).length = links.length + 1 := by
      rw [List.length_take]; omega
    obtain ⟨h1, h2, h3, h4⟩ := collect_recvs (evs.take (links.length + 1))
      ⟨links.length + 1, 0, .select, [], [], []⟩ rfl (by simp) hnd
      (by simp only [Nat.zero_add]; omega)
    simp only [Nat.zero_add, List.nil_append, htl] at h2 h3 h4
    rw [if_neg (by omega)] at h4
    rw [hsplit, collect_append, hstart, collect_returned _ _ none h4]
    rw [← hsplit]
    exact ⟨h4, h2, h3⟩

/-- C7, at explicit observations: an error and a result are received, the
cancellation in the third iteration ends the loop, the result behind it is
not received. -/
theorem collector_stops_only_on_cancel_witness :
    ((spawn none "s" ["a", "b", "c"]).main.collect
        [.recv (.error (errorsNew "e")), .recv (.result ⟨"a", "x"⟩),
          .done (errorsNew "context canceled"), .recv (.result ⟨"b", "y"⟩)]).pc =
        .returned (some (errorsNew "context canceled")) ∧
      ((spawn none "s" ["a", "b", "c"]).main.collect
        [.recv (.error (errorsNew "e")), .recv (.result ⟨"a", "x"⟩),
          .done (errorsNew "context canceled"), .recv (.result ⟨"b", "y"⟩)]).i = 2 ∧
      ((spawn none "s" ["a", "b", "c"]).main.collect
        [.recv (.error (errorsNew "e")), .recv (.result ⟨"a", "x"⟩),
          .done (errorsNew "context canceled"), .recv (.result ⟨"b", "y"⟩)]).received =
        [.error (errorsNew "e"), .result ⟨"a", "x"⟩] :=
  (collector_stops_only_on_cancel none "s" ["a", "b", "c"]
      [.recv (.error (errorsNew "e")), .recv (.result ⟨"a", "x"⟩),
        .done (errorsNew "context canceled"), .recv (.result ⟨"b", "y"⟩)]).1
    [.recv (.error (errorsNew "e")), .recv (.result ⟨"a", "x"⟩)] [.recv (.result ⟨"b", "y"⟩)]
    (errorsNew "context canceled") rfl (by decide) (by decide)

/-! ## Discovery -/

/-- C8, the code at a response that decodes to an empty array: `getLinks`
indexes `data[0]` and panics, and so does `run`; no error is returned. -/
theorem getLinks_empty_array_panics :
    getLinks (exampleEnv []) "https://www.reddit.com/r/golang/comments/abc123.json" =
        .panic "runtime error: index out of range [0] with length 0" ∧
      getLinks (exampleEnv [⟨[]⟩]) "https://www.reddit.com/r/golang/comments/abc123.json" =
        .panic "runtime error: index out of range [0] with length 0" ∧
      run (exampleEnv []) none "https://www.reddit.com/r/golang/comments/abc123.json" =
        .panic "runtime error: index out of range [0] with length 0" := by
  refine ⟨?_, ?_, ?_⟩ <;> rfl

/-- C9, the code at a host that merely ends in the letters `reddit.com`:
`fixSourceURL` accepts it. -/
theorem fixSourceURL_accepts_notreddit :
    HasSuffix "notreddit.com" ".reddit.com" = false ∧
      fixSourceURL exampleParse "https://notreddit.com/r/golang/comments/abc123/title" =
        .ok "https://www.reddit.com/r/golang/comments/abc123.json" := by
  constructor <;> rfl

/-- C10 fails as stated.  For a path that starts with two slashes the first
segment is empty, the result is not `https://www.reddit.com/` followed by the
four segments joined by `/`, and `fixSourceURL` rejects its own output.  For a
path with a space the result holds the escaped path, not the segments of the
input. -/
theorem fixSourceURL_not_idempotent :
    fixSourceURL exampleParse "https://reddit.com//a/comments/b" =
        .ok "https://www.reddit.com/a/comments/b.json" ∧
      Split (TrimPrefix "//a/comments/b" "/") '/' = ["", "a", "comments", "b"] ∧
      "https://www.reddit.com/a/comments/b.json" ≠
        "https://www.reddit.com/" ++ Join ["", "a", "comments", "b.json"] '/' ∧
      fixSourceURL exampleParse "https://www.reddit.com/a/comments/b.json" =
        .error (errorsNew "source URL not for a specific post") ∧
      fixSourceURL exampleParse "https://reddit.com/r/a b/comments/c" =
        .ok "https://www.reddit.com/r/a%20b/comments/c.json" ∧
      Split (TrimPrefix "/r/a b/comments/c" "/") '/' = ["r", "a b", "comments", "c"] ∧
      "https://www.reddit.com/r/a%20b/comments/c.json" ≠
        "https://www.reddit.com/" ++ Join ["r", "a b", "comments", "c.json"] '/' := by
  refine ⟨by rfl, by rfl, by decide, by rfl, by rfl, by rfl, by decide⟩

/-! ## The normal form of the source URL -/

theorem trimSuffix_json (s : String) : TrimSuffix s ".json" ++ ".json" = withJSON s := by
  unfold TrimSuffix withJSON
  split
  · rename_i h
    apply String.ext
    simp only [String.data_append]
    have h2 : ".json".data <:+ s.data := List.isSuffixOf_iff_suffix.mp h
    obtain ⟨t, ht⟩ := h2
    rw [← ht]; simp
  · rfl

theorem hasSuffix_withJSON (s : String) : HasSuffix (withJSON s) ".json" = true := by
  unfold withJSON
  split
  · assumption
  · unfold HasSuffix
    rw [List.isSuffixOf_iff_suffix]
    exact ⟨s.data, rfl⟩

theorem withJSON_idem (s : String) : withJSON (withJSON s) = withJSON s := by
  rw [withJSON, if_pos (hasSuffix_withJSON s)]

theorem splitOnP_no_sep {α : Type} (p : α → Bool) (l : List α) :
    ∀ x ∈ l.splitOnP p, ∀ y ∈ x, p y = false := by
  induction l with
  | nil => simp [List.splitOnP_nil]
  | cons a l ih =>
    rw [List.splitOnP_cons]
    by_cases h : p a = true
    · rw [if_pos h]
      intro x hx
      rcases List.mem_cons.mp hx with rfl | hx
      · simp
      · exact ih x hx
    · rw [if_neg h]
      cases hs : List.splitOnP p l with
      | nil => simp [List.modifyHead]
      | cons hd tl =>
        rw [hs] at ih
        intro x hx
        simp only [List.modifyHead, List.mem_cons] at hx
        rcases hx with rfl | hx
        · intro y hy
          rcases List.mem_cons.mp hy with rfl | hy
          · simpa using h
          · exact ih hd (List.mem_cons_self _ _) y hy
        · exact ih x (List.mem_cons_of_mem _ hx)

theorem split_no_sep (s : String) (sep : Char) : ∀ x ∈ Split s sep, sep ∉ x.data := by
  intro x hx
  unfold Split at hx
  obtain ⟨l, hl, rfl⟩ := List.mem_map.mp hx
  intro hmem
  have := splitOnP_no_sep (· == sep) s.data l hl sep hmem
  simp at this

theorem escape_noEscape (s : String) (h : NoEscape s) : escape s .encodePath = s := by
  apply String.ext
  show s.data.flatMap (escapeChar .encodePath) = s.data
  have : ∀ l : List Char, (∀ c ∈ l, c.toNat < 128 ∧ shouldEscape c .encodePath = false) →
      l.flatMap (escapeChar .encodePath) = l := by
    intro l
    induction l with
    | nil => intro _; rfl
    | cons c l ih =>
      intro hl
      have hc := hl c (List.mem_cons_self _ _)
      rw [List.flatMap_cons, ih (fun c hc => hl c (List.mem_cons_of_mem _ hc))]
      simp [escapeChar, hc.1, hc.2]
  exact this s.data h

theorem string_ne_of_mem {s t : String} (c : Char) (h1 : c ∈ s.data) (h2 : c ∉ t.data) : s ≠ t := by
  intro h; subst h; exact h2 h1

theorem append_ne_empty (s t : String) (h : s.data ≠ []) : s ++ t ≠ "" := by
  intro he
  have := congrArg String.data he
  simp only [String.data_append] at this
  exact h (List.append_eq_nil.mp this).1

theorem url_string_reddit (J : String) (hJ : '/' ∈ J.data) :
    URL.String ⟨"https", "www.reddit.com", J, "", ""⟩ =
      "https://www.reddit.com" ++
        (if escape J .encodePath ≠ "" ∧ (escape J .encodePath).data.head? ≠ some '/' then "/" else "") ++
        escape J .encodePath := by
  have h1 : J ≠ "*" := string_ne_of_mem '/' hJ (by decide)
  have h2 : escape "www.reddit.com" .encodeHost = "www.reddit.com" := by rfl
  have h3 : ("https" : String) ≠ "" := by decide
  have h4 : ("www.reddit.com" : String) ≠ "" := by decide
  have h5 : ∀ t : String, ¬ (("https" ++ ":" ++ ("//" ++ "www.reddit.com") ++ t = "") ∧
      ':' ∈ ((escape J .encodePath).data.splitOn '/').headD []) := by
    intro t h
    exact append_ne_empty _ t (by decide) h.1
  unfold URL.String
  simp only [URL.EscapedPath, if_neg h1, h2, h3, h4, ne_eq, not_false_eq_true, true_or, if_true,
    and_true, not_true_eq_false, if_false, if_neg (h5 _)]
  apply String.ext
  simp only [String.data_append]
  simp

theorem join_four (a b c d : String) :
    (Join [a, b, c, d] '/').data = a.data ++ '/' :: (b.data ++ '/' :: (c.data ++ '/' :: d.data)) := by
  simp [Join, List.intercalate, List.intersperse]

theorem split_join_four (a b c d : String) (ha : '/' ∉ a.data) (hb : '/' ∉ b.data)
    (hc : '/' ∉ c.data) (hd : '/' ∉ d.data) :
    Split (Join [a, b, c, d] '/') '/' = [a, b, c, d] := by
  unfold Split Join
  show List.map String.mk (List.splitOn '/' ([ '/' ].intercalate (List.map String.data [a, b, c, d]))) = _
  rw [List.splitOn_intercalate _ '/' (by simp [ha, hb, hc, hd]) (by simp)]
  rfl

theorem trimPrefix_slash (s : String) : TrimPrefix ("/" ++ s) "/" = s := by
  have h : HasPrefix ("/" ++ s) "/" = true := by
    unfold HasPrefix
    rw [List.isPrefixOf_iff_prefix]
    exact ⟨s.data, rfl⟩
  rw [TrimPrefix, if_pos h]
  rfl

theorem withJSON_no_slash (s : String) (h : '/' ∉ s.data) : '/' ∉ (withJSON s).data := by
  unfold withJSON
  split
  · exact h
  · simp only [String.data_append, List.mem_append, not_or]
    exact ⟨h, by decide⟩

/-- C10 as amended.  Whenever `fixSourceURL` succeeds, the input parses, its
path has at least four segments `p0`, `p1`, `comments`, `p3`, and the result is
the string form of the URL with scheme `https`, host `www.reddit.com` and the
path `p0/p1/comments/p3'`, where `p3'` is `p3` with `.json` added unless `p3`
already ends in it; every input with a host ending in `reddit.com` and the
same four segments has the same result, whatever its scheme, host, further
segments, query and fragment.  When `p0`
is not empty and that path needs no URL escaping, the result is exactly
`https://www.reddit.com/` followed by that path, and `fixSourceURL` applied to
the result, which `url.Parse` reads back as host `www.reddit.com` and that
path behind a slash, succeeds and returns it unchanged. -/
theorem fixSourceURL_normal_form (parse : String → Except GoError URL) (src out : String)
    (h : fixSourceURL parse src = .ok out) :
    ∃ (p : URL) (p0 p1 p3 : String) (rest : List String),
      parse src = .ok p ∧ HasSuffix p.Host "reddit.com" = true ∧
      Split (TrimPrefix p.Path "/") '/' = p0 :: p1 :: "comments" :: p3 :: rest ∧
      out = URL.String
        ⟨"https", "www.reddit.com", Join [p0, p1, "comments", withJSON p3] '/', "", ""⟩ ∧
      (∀ (src' : String) (q : URL) (rest' : List String), parse src' = .ok q →
        HasSuffix q.Host "reddit.com" = true →
        Split (TrimPrefix q.Path "/") '/' = p0 :: p1 :: "comments" :: p3 :: rest' →
        fixSourceURL parse src' = .ok out) ∧
      (p0 ≠ "" → NoEscape (Join [p0, p1, "comments", withJSON p3] '/') →
        out = "https://www.reddit.com/" ++ Join [p0, p1, "comments", withJSON p3] '/' ∧
        ∀ q : URL, parse out = .ok q → q.Host = "www.reddit.com" →
          q.Path = "/" ++ Join [p0, p1, "comments", withJSON p3] '/' →
          fixSourceURL parse out = .ok out) := by
  unfold fixSourceURL at h
  split at h
  · cases h
  · rename_i p hp
    split at h
    · cases h
    · rename_i hhost
      split at h
      · rename_i p0 p1 p2 p3 rest hsplit
        split at h
        · cases h
        · rename_i hc
          have hp2 : p2 = "comments" := not_not.mp hc
          subst hp2
          rw [trimSuffix_json] at h
          have hout := (Except.ok.inj h).symm
          have hmem := split_no_sep (TrimPrefix p.Path "/") '/'
          rw [hsplit] at hmem
          have h0 : '/' ∉ p0.data := hmem p0 (by simp)
          have h1 : '/' ∉ p1.data := hmem p1 (by simp)
          have h3 : '/' ∉ p3.data := hmem p3 (by simp)
          refine ⟨p, p0, p1, p3, rest, hp, by simpa using hhost, hsplit, hout, ?_, ?_⟩
          · intro src' q rest' hq hqh hqs
            unfold fixSourceURL
            simp only [hq, hqh, hqs, trimSuffix_json]
            simp [hout]
          intro hne hesc
          have hJ : '/' ∈ (Join [p0, p1, "comments", withJSON p3] '/').data := by
            rw [join_four]; simp
          have hform : out =
              "https://www.reddit.com/" ++ Join [p0, p1, "comments", withJSON p3] '/' := by
            rw [hout, url_string_reddit _ hJ, escape_noEscape _ hesc]
            have hhead : (Join [p0, p1, "comments", withJSON p3] '/').data.head? ≠ some '/' := by
              rw [join_four]
              cases hd : p0.data with
              | nil => exact absurd (String.ext hd) hne
              | cons c cs =>
                simp only [List.cons_append, List.head?_cons, ne_eq, Option.some.injEq]
                rintro rfl
                exact h0 (by rw [hd]; simp)
            have hnon : Join [p0, p1, "comments", withJSON p3] '/' ≠ "" :=
              string_ne_of_mem '/' hJ (by decide)
            rw [if_pos ⟨hnon, hhead⟩]
            apply String.ext
            simp
          refine ⟨hform, ?_⟩
          intro q hq hqh hqp
          unfold fixSourceURL
          simp only [hq, hqh, hqp, trimPrefix_slash]
          rw [split_join_four p0 p1 "comments" (withJSON p3) h0 h1 (by decide)
            (withJSON_no_slash p3 h3)]
          have hs : HasSuffix "www.reddit.com" "reddit.com" = true := by rfl
          simp only [hs, trimSuffix_json, withJSON_idem]
          simp [hout]
      · cases h

/-- C10 as amended, at an explicit input with a scheme, a host, further
path segments, a query and a fragment of its own: the result is the normal
form, and `fixSourceURL` returns it unchanged when applied to it. -/
theorem fixSourceURL_normal_form_witness :
    fixSourceURL exampleParse
        "https://old.reddit.com/r/golang/comments/abc123/title/?sort=new#top" =
        .ok "https://www.reddit.com/r/golang/comments/abc123.json" ∧
      "https://www.reddit.com/r/golang/comments/abc123.json" =
        "https://www.reddit.com/" ++ Join ["r", "golang", "comments", withJSON "abc123"] '/' ∧
      fixSourceURL exampleParse "https://www.reddit.com/r/golang/comments/abc123.json" =
        .ok "https://www.reddit.com/r/golang/comments/abc123.json" := by
  obtain ⟨p, p0, p1, p3, rest, hp, -, hs, -, -, himp⟩ :=
    fixSourceURL_normal_form exampleParse
      "https://old.reddit.com/r/golang/comments/abc123/title/?sort=new#top"
      "https://www.reddit.com/r/golang/comments/abc123.json" rfl
  have hp1 : Except.ok (ε := GoError)
      (⟨"https", "old.reddit.com", "/r/golang/comments/abc123/title/", "sort=new", "top"⟩ : URL) =
      Except.ok p := hp
  have hp2 := Except.ok.inj hp1
  subst hp2
  have hs1 : (["r", "golang", "comments", "abc123", "title", ""] : List String) =
      p0 :: p1 :: "comments" :: p3 :: rest := hs
  simp only [List.cons.injEq] at hs1
  obtain ⟨h0, h1, -, h3, -⟩ := hs1
  subst h0 h1 h3
  have hne : ("r" : String) ≠ "" := by decide
  have hesc : NoEscape (Join ["r", "golang", "comments", withJSON "abc123"] '/') := by
    unfold NoEscape
    decide
  exact ⟨rfl, (himp hne hesc).1, (himp hne hesc).2
    ⟨"https", "www.reddit.com", "/r/golang/comments/abc123.json", "", ""⟩ rfl rfl rfl⟩

/-! ## The moves of the program -/

section Moves

variable (parse : String → Except GoError URL)
  (wayback : Option GoError → URL → Except GoError String)

theorem step_cancel_inv {s t : System} {cause : GoError}
    (h : step parse wayback s (.cancel cause) = some t) :
    s.ctx = none ∧
      t = { s with ctx := some cause, workers := s.workers.map Worker.wake,
                   main := s.main.wake cause } := by
  simp only [step] at h
  split at h
  · cases h
  · rename_i hc
    exact ⟨hc, (Option.some.inj h).symm⟩

theorem step_run_inv {s t : System} {k : Nat}
    (h : step parse wayback s (.run k) = some t) :
    ∃ w, s.workers.get? k = some w ∧ w.pc = .spawned ∧
      t = { s with
        arc := (s.arc.archive parse wayback s.ctx s.heap w.link).arc
        heap := (s.arc.archive parse wayback s.ctx s.heap w.link).heap
        workers := s.workers.set k
          { w with pc := .select (s.arc.archive parse wayback s.ctx s.heap w.link).send,
                   calls := w.calls ++ (s.arc.archive parse wayback s.ctx s.heap w.link).calls } } := by
  simp only [step] at h
  split at h
  · rename_i w hw
    split at h
    · rename_i hpc
      exact ⟨w, hw, hpc, (Option.some.inj h).symm⟩
    · cases h
  · cases h

theorem step_done_inv {s t : System} {k : Nat}
    (h : step parse wayback s (.done k) = some t) :
    ∃ w snd cause, s.workers.get? k = some w ∧ w.pc = .select snd ∧ s.ctx = some cause ∧
      t = s.setPc k w (.dropped snd.val) := by
  simp only [step] at h
  split at h
  · rename_i w hw
    split at h
    · rename_i snd cause hpc hctx
      exact ⟨w, snd, cause, hw, hpc, hctx, (Option.some.inj h).symm⟩
    · cases h
  · cases h

theorem step_send_inv {s t : System} {k : Nat}
    (h : step parse wayback s (.send k) = some t) :
    ∃ w snd cr ce, s.workers.get? k = some w ∧ w.pc = .select snd ∧
      s.main.pc = .blocked cr ce ∧ canSync snd cr ce = true ∧
      t = { s.setPc k w (.sent snd.val) with main := s.main.observe (.recv snd.val) } := by
  simp only [step] at h
  split at h
  · rename_i w hw
    split at h
    · rename_i snd cr ce hpc hm
      split at h
      · rename_i hs
        exact ⟨w, snd, cr, ce, hw, hpc, hm, hs, (Option.some.inj h).symm⟩
      · cases h
    · cases h
  · cases h

theorem step_park_inv {s t : System} {k : Nat}
    (h : step parse wayback s (.park k) = some t) :
    ∃ w snd, s.workers.get? k = some w ∧ w.pc = .select snd ∧ s.ctx = none ∧
      (∀ cr ce, s.main.pc = .blocked cr ce → canSync snd cr ce = false) ∧
      t = s.setPc k w (.blocked snd) := by
  simp only [step] at h
  split at h
  · rename_i w hw
    split at h
    · rename_i snd hpc
      split at h
      · rename_i hs
        refine ⟨w, snd, hw, hpc, by simpa using hs.1, ?_, (Option.some.inj h).symm⟩
        intro cr ce hm
        have := hs.2
        simpa [hm] using this
      · cases h
    · cases h
  · cases h

theorem step_mainDone_inv {s t : System}
    (h : step parse wayback s .mainDone = some t) :
    ∃ cause, s.main.pc = .select ∧ s.ctx = some cause ∧
      t = { s.enterSelect.2.2 with main := s.main.observe (.done cause) } := by
  simp only [step] at h
  split at h
  · rename_i cause hm hc
    exact ⟨cause, hm, hc, (Option.some.inj h).symm⟩
  · cases h

theorem step_recv_inv {s t : System} {k : Nat}
    (h : step parse wayback s (.recv k) = some t) :
    ∃ w snd, s.main.pc = .select ∧ s.workers.get? k = some w ∧ w.pc = .blocked snd ∧
      canSync snd s.enterSelect.1 s.enterSelect.2.1 = true ∧
      t = { s.enterSelect.2.2.setPc k w (.sent snd.val) with
            main := s.main.observe (.recv snd.val) } := by
  simp only [step] at h
  split at h
  · rename_i w hm hw
    split at h
    · rename_i snd hpc
      split at h
      · rename_i hs
        exact ⟨w, snd, hm, hw, hpc, hs, (Option.some.inj h).symm⟩
      · cases h
    · cases h
  · cases h

theorem step_mainPark_inv {s t : System}
    (h : step parse wayback s .mainPark = some t) :
    s.main.pc = .select ∧ s.ctx = none ∧
      (∀ w ∈ s.workers, ∀ snd, w.pc = .blocked snd →
        canSync snd s.enterSelect.1 s.enterSelect.2.1 = false) ∧
      t = { s.enterSelect.2.2 with
            main := { s.main with pc := .blocked s.enterSelect.1 s.enterSelect.2.1 } } := by
  simp only [step] at h
  split at h
  · rename_i hm
    split at h
    · rename_i hs
      refine ⟨hm, by simpa using hs.1, ?_, (Option.some.inj h).symm⟩
      intro w hw snd hpc
      have h2 := hs.2
      rw [List.any_eq_false] at h2
      have := h2 w hw
      simpa [hpc] using this
    · cases h
  · cases h

/-! ### Lists -/

theorem forall_mem_set {α : Type} {P : α → Prop} {l : List α} {k : Nat} {v : α}
    (hl : ∀ x ∈ l, P x) (hv : P v) : ∀ x ∈ l.set k v, P x := by
  intro x hx
  rcases List.mem_or_eq_of_mem_set hx with h | h
  · exact hl x h
  · exact h ▸ hv

theorem map_set_same {α β : Type} (f : α → β) :
    ∀ (l : List α) (k : Nat) (w v : α), l.get? k = some w → f v = f w →
      (l.set k v).map f = l.map f
  | [], _, _, _, h, _ => by simp at h
  | x :: l, 0, w, v, h, hf => by
    simp only [List.get?_cons_zero, Option.some.injEq] at h
    subst h
    simp [hf]
  | x :: l, k + 1, w, v, h, hf => by
    simp only [List.get?_cons_succ] at h
    simp [map_set_same f l k w v h hf]

theorem filterMap_set_none {α β : Type} (f : α → Option β) :
    ∀ (l : List α) (k : Nat) (w v : α), l.get? k = some w → f w = none → f v = none →
      (l.set k v).filterMap f = l.filterMap f
  | [], _, _, _, h, _, _ => by simp at h
  | x :: l, 0, w, v, h, hw, hv => by
    simp only [List.get?_cons_zero, Option.some.injEq] at h
    subst h
    simp [List.filterMap_cons, hw, hv]
  | x :: l, k + 1, w, v, h, hw, hv => by
    simp only [List.get?_cons_succ] at h
    simp [List.filterMap_cons, filterMap_set_none f l k w v h hw hv]

theorem filterMap_set_some {α β : Type} (f : α → Option β) :
    ∀ (l : List α) (k : Nat) (w v : α) (o : β), l.get? k = some w → f w = none →
      f v = some o → ((l.set k v).filterMap f).Perm (l.filterMap f ++ [o])
  | [], _, _, _, _, h, _, _ => by simp at h
  | x :: l, 0, w, v, o, h, hw, hv => by
    simp only [List.get?_cons_zero, Option.some.injEq] at h
    subst h
    simp only [List.set_cons_zero, List.filterMap_cons, hw, hv]
    exact (List.perm_append_singleton o _).symm
  | x :: l, k + 1, w, v, o, h, hw, hv => by
    simp only [List.get?_cons_succ] at h
    have ih := filterMap_set_some f l k w v o h hw hv
    simp only [List.set_cons_succ, List.filterMap_cons]
    cases f x with
    | none => exact ih
    | some b => exact List.Perm.cons b ih

theorem sum_map_set {α : Type} (f : α → Nat) :
    ∀ (l : List α) (k : Nat) (w v : α), l.get? k = some w →
      ((l.set k v).map f).sum + f w = (l.map f).sum + f v
  | [], _, _, _, h => by simp at h
  | x :: l, 0, w, v, h => by
    simp only [List.get?_cons_zero, Option.some.injEq] at h
    subst h
    simp only [List.set_cons_zero, List.map_cons, List.sum_cons]
    omega
  | x :: l, k + 1, w, v, h => by
    simp only [List.get?_cons_succ] at h
    have ih := sum_map_set f l k w v h
    simp only [List.set_cons_succ, List.map_cons, List.sum_cons]
    omega

/-! ### What `archive` computes -/

theorem handoff_arc (c : Option GoError) (link : String) :
    (handoff parse wayback c link).arc = arc1 ∧ (handoff parse wayback c link).heap = 2 :=
  archive_arc parse wayback c {} 0 link

theorem handoff_sync (c : Option GoError) (link : String) :
    canSync (handoff parse wayback c link).send (some 0) (some 1) = true := by
  have h := archive_send_ch parse wayback c {} 0 link
  unfold canSync
  unfold handoff
  cases hv : (Archiver.archive parse wayback c {} 0 link).send.val with
  | result r => rw [hv] at h; simp only [h]; rfl
  | error e => rw [hv] at h; simp only [h]; rfl

theorem handoff_matches (c : Option GoError) (link : String) :
    Matches link (handoff parse wayback c link).send.val := by
  unfold handoff Archiver.archive
  dsimp only
  split
  · simp only [Archiver.error, Matches, Errorf, GoError.Error, String.data_append,
      List.append_assoc]
    exact (List.prefix_append _ _).isInfix
  · split
    · simp only [Archiver.error, Matches, Errorf, GoError.Error, String.data_append,
        List.append_assoc]
      exact (List.prefix_append _ _).isInfix
    · simp only [Archiver.result, Matches]

theorem archive_of_inv {s : System}
    (h : (s.arc = {} ∧ s.heap = 0 ∧ (∀ w ∈ s.workers, w.pc = .spawned) ∧
      s.main.pc.isBlocked = false) ∨ (s.arc = arc1 ∧ s.heap = 2))
    (c : Option GoError) (link : String) :
    s.arc.archive parse wayback c s.heap link = handoff parse wayback c link := by
  rcases h with ⟨ha, hh, -, -⟩ | ⟨ha, hh⟩
  · rw [ha, hh]; rfl
  · rw [ha, hh]; rfl

theorem enterSelect_of_inv {s : System}
    (h : (s.arc = {} ∧ s.heap = 0 ∧ (∀ w ∈ s.workers, w.pc = .spawned) ∧
      s.main.pc.isBlocked = false) ∨ (s.arc = arc1 ∧ s.heap = 2)) :
    s.enterSelect = (some 0, some 1, { s with arc := arc1, heap := 2 }) := by
  rcases h with ⟨ha, hh, -, -⟩ | ⟨ha, hh⟩
  · simp only [System.enterSelect, ha, hh]; rfl
  · simp only [System.enterSelect, ha, hh]; rfl

/-! ### Goroutines -/

theorem ok_select {w : Worker} {snd : Send} (h : w.ok parse wayback) (hpc : w.pc = .select snd) :
    ∃ c, snd = (handoff parse wayback c w.link).send ∧
      w.calls = (handoff parse wayback c w.link).calls := by
  rcases h with ⟨h1, -⟩ | ⟨c, hc, h1 | h1 | h1 | h1⟩
  · rw [hpc] at h1; cases h1
  · rw [hpc] at h1; exact ⟨c, Pc.select.inj h1, hc⟩
  · rw [hpc] at h1; cases h1
  · rw [hpc] at h1; cases h1
  · rw [hpc] at h1; cases h1

theorem ok_blocked {w : Worker} {snd : Send} (h : w.ok parse wayback) (hpc : w.pc = .blocked snd) :
    ∃ c, snd = (handoff parse wayback c w.link).send ∧
      w.calls = (handoff parse wayback c w.link).calls := by
  rcases h with ⟨h1, -⟩ | ⟨c, hc, h1 | h1 | h1 | h1⟩
  · rw [hpc] at h1; cases h1
  · rw [hpc] at h1; cases h1
  · rw [hpc] at h1; exact ⟨c, Pc.blocked.inj h1, hc⟩
  · rw [hpc] at h1; cases h1
  · rw [hpc] at h1; cases h1

theorem ok_sent {w : Worker} {o : Outcome} (h : w.ok parse wayback) (hpc : w.pc = .sent o) :
    ∃ c, o = (handoff parse wayback c w.link).send.val ∧
      w.calls = (handoff parse wayback c w.link).calls := by
  rcases h with ⟨h1, -⟩ | ⟨c, hc, h1 | h1 | h1 | h1⟩
  · rw [hpc] at h1; cases h1
  · rw [hpc] at h1; cases h1
  · rw [hpc] at h1; cases h1
  · rw [hpc] at h1; exact ⟨c, Pc.sent.inj h1, hc⟩
  · rw [hpc] at h1; cases h1

theorem ok_wake {w : Worker} (h : w.ok parse wayback) : w.wake.ok parse wayback := by
  unfold Worker.wake
  split
  · rename_i snd hpc
    obtain ⟨c, hs, hc⟩ := ok_blocked parse wayback h hpc
    exact Or.inr ⟨c, hc, Or.inr (Or.inr (Or.inr (by rw [hs])))⟩
  · exact h

theorem wake_link (w : Worker) : w.wake.link = w.link := by
  unfold Worker.wake; split <;> rfl

theorem wake_not_blocked (w : Worker) : w.wake.pc.isBlocked = false := by
  unfold Worker.wake
  split
  · rfl
  · rename_i h
    cases hpc : w.pc with
    | blocked snd => exact absurd hpc (h snd)
    | _ => rfl

theorem wake_sentOutcome (w : Worker) : w.wake.pc.sentOutcome = w.pc.sentOutcome := by
  unfold Worker.wake
  split
  · rename_i snd hpc; rw [hpc]; rfl
  · rfl

theorem wake_spawned {w : Worker} (h : w.pc = .spawned) : w.wake.pc = .spawned := by
  unfold Worker.wake
  split
  · rename_i snd hpc; rw [h] at hpc; cases hpc
  · exact h

theorem main_wake_not_blocked (c : Collector) (cause : GoError) :
    (c.wake cause).pc.isBlocked = false := by
  unfold Collector.wake
  split
  · rfl
  · rename_i h
    cases hpc : c.pc with
    | blocked cr ce => exact absurd hpc (h cr ce)
    | _ => rfl

theorem main_wake_fields (c : Collector) (cause : GoError) :
    (c.wake cause).n = c.n ∧ (c.wake cause).i = c.i ∧ (c.wake cause).received = c.received := by
  unfold Collector.wake
  split <;> exact ⟨rfl, rfl, rfl⟩

/-! ### The invariant is kept by every move -/

theorem not_spawned_arc {s : System} {w : Worker} {k : Nat}
    (h : (s.arc = {} ∧ s.heap = 0 ∧ (∀ w ∈ s.workers, w.pc = .spawned) ∧
      s.main.pc.isBlocked = false) ∨ (s.arc = arc1 ∧ s.heap = 2))
    (hk : s.workers.get? k = some w) (hpc : w.pc ≠ .spawned) :
    s.arc = arc1 ∧ s.heap = 2 := by
  rcases h with ⟨-, -, hw, -⟩ | h
  · exact absurd (hw w (List.get?_mem hk)) hpc
  · exact h

theorem inv_cancel {links : List String} {s t : System} {cause : GoError}
    (hi : Inv parse wayback links s) (h : step parse wayback s (.cancel cause) = some t) :
    Inv parse wayback links t := by
  obtain ⟨hctx, rfl⟩ := step_cancel_inv parse wayback h
  obtain ⟨hn, hidx, hrecv⟩ := main_wake_fields s.main cause
  refine ⟨?_, ?_, ?_, ?_, ?_, ?_, ?_, ?_, ?_, ?_, ?_⟩
  · rcases hi.arc with ⟨ha, hh, hw, hm⟩ | h1
    · refine Or.inl ⟨ha, hh, ?_, main_wake_not_blocked _ _⟩
      intro w hw'
      obtain ⟨v, hv, rfl⟩ := List.mem_map.mp hw'
      exact wake_spawned (hw v hv)
    · exact Or.inr h1
  · show (s.workers.map Worker.wake).map Worker.link = links
    rw [List.map_map, ← hi.subs]
    exact List.map_congr_left fun w _ => wake_link w
  · intro w hw
    obtain ⟨v, hv, rfl⟩ := List.mem_map.mp hw
    exact ok_wake parse wayback (hi.ok v hv)
  · intro cr ce hpc
    have := main_wake_not_blocked s.main cause
    rw [show (s.main.wake cause).pc = .blocked cr ce from hpc] at this
    cases this
  · intro _
    refine ⟨?_, main_wake_not_blocked _ _⟩
    intro w hw
    obtain ⟨v, hv, rfl⟩ := List.mem_map.mp hw
    exact wake_not_blocked v
  · intro hb
    have := main_wake_not_blocked s.main cause
    rw [show (s.main.wake cause).pc.isBlocked = true from hb] at this
    cases this
  · show (s.main.wake cause).n = _
    rw [hn]; exact hi.n
  · show (s.main.wake cause).i = (s.main.wake cause).received.length
    rw [hidx, hrecv]; exact hi.i
  · show (s.main.wake cause).received.Perm _
    rw [hrecv]
    have : (s.workers.map Worker.wake).filterMap (fun w => w.pc.sentOutcome) =
        s.workers.filterMap fun w => w.pc.sentOutcome := by
      rw [List.filterMap_map]
      exact List.filterMap_congr fun w _ => wake_sentOutcome w
    rw [this]; exact hi.perm
  · have hm := hi.mpc
    show match (s.main.wake cause).pc with
      | .select => (s.main.wake cause).i < (s.main.wake cause).n
      | .blocked _ _ => (s.main.wake cause).i < (s.main.wake cause).n
      | .returned none => (s.main.wake cause).i = (s.main.wake cause).n
      | .returned (some c) => some cause = some c
    rw [hidx, hn]
    unfold Collector.wake
    cases hpc : s.main.pc with
    | select => simp only [hpc] at hm ⊢; exact hm
    | blocked cr ce => simp only [Collector.observe]
    | returned e =>
      cases e with
      | none => simp only [hpc] at hm ⊢; exact hm
      | some c => simp only [hpc] at hm ⊢; rw [hctx] at hm; cases hm
  · intro hc; cases hc

theorem inv_run {links : List String} {s t : System} {k : Nat}
    (hi : Inv parse wayback links s) (h : step parse wayback s (.run k) = some t) :
    Inv parse wayback links t := by
  obtain ⟨w, hk, hpc, rfl⟩ := step_run_inv parse wayback h
  rw [archive_of_inv parse wayback hi.arc]
  obtain ⟨ha, hh⟩ := handoff_arc parse wayback s.ctx w.link
  have hwok := hi.ok w (List.get?_mem hk)
  have hcalls : w.calls = [] := by
    rcases hwok with ⟨-, hc⟩ | ⟨c, -, h1 | h1 | h1 | h1⟩
    · exact hc
    all_goals (rw [hpc] at h1; cases h1)
  refine ⟨Or.inr ⟨ha, hh⟩, ?_, ?_, hi.mainCh, ?_, ?_, hi.n, hi.i, ?_, hi.mpc, ?_⟩
  · rw [← hi.subs]; exact map_set_same Worker.link _ _ w _ hk rfl
  · exact forall_mem_set hi.ok (Or.inr ⟨s.ctx, by simp [hcalls], Or.inl rfl⟩)
  · intro hc
    exact ⟨forall_mem_set (hi.awake hc).1 rfl, (hi.awake hc).2⟩
  · intro hb
    exact forall_mem_set (hi.excl hb) rfl
  · have := filterMap_set_none (fun w : Worker => w.pc.sentOutcome) s.workers k w
      { w with pc := .select (handoff parse wayback s.ctx w.link).send,
               calls := w.calls ++ (handoff parse wayback s.ctx w.link).calls } hk
      (by simp [hpc, Pc.sentOutcome]) rfl
    show s.main.received.Perm (List.filterMap _ (s.workers.set k _))
    rw [this]; exact hi.perm
  · intro hc
    exact forall_mem_set (hi.live hc) rfl

theorem inv_done {links : List String} {s t : System} {k : Nat}
    (hi : Inv parse wayback links s) (h : step parse wayback s (.done k) = some t) :
    Inv parse wayback links t := by
  obtain ⟨w, snd, cause, hk, hpc, hctx, rfl⟩ := step_done_inv parse wayback h
  have hwok := hi.ok w (List.get?_mem hk)
  obtain ⟨c, hs, hc⟩ := ok_select parse wayback hwok hpc
  have harc := not_spawned_arc hi.arc hk (by rw [hpc]; exact fun h => by cases h)
  refine ⟨Or.inr harc, ?_, ?_, hi.mainCh, ?_, ?_, hi.n, hi.i, ?_, hi.mpc, ?_⟩
  · rw [← hi.subs]; exact map_set_same Worker.link _ _ w _ hk rfl
  · exact forall_mem_set hi.ok (Or.inr ⟨c, hc, Or.inr (Or.inr (Or.inr (by rw [hs])))⟩)
  · intro hc
    exact ⟨forall_mem_set (hi.awake hc).1 rfl, (hi.awake hc).2⟩
  · intro hb
    exact forall_mem_set (hi.excl hb) rfl
  · have := filterMap_set_none (fun w : Worker => w.pc.sentOutcome) s.workers k w
      { w with pc := .dropped snd.val } hk (by simp [hpc, Pc.sentOutcome]) rfl
    show s.main.received.Perm (List.filterMap _ (s.workers.set k _))
    rw [this]; exact hi.perm
  · intro hc
    rw [show (s.setPc k w (.dropped snd.val)).ctx = s.ctx from rfl, hctx] at hc
    cases hc

theorem inv_park {links : List String} {s t : System} {k : Nat}
    (hi : Inv parse wayback links s) (h : step parse wayback s (.park k) = some t) :
    Inv parse wayback links t := by
  obtain ⟨w, snd, hk, hpc, hctx, hready, rfl⟩ := step_park_inv parse wayback h
  have hwok := hi.ok w (List.get?_mem hk)
  obtain ⟨c, hs, hc⟩ := ok_select parse wayback hwok hpc
  have harc := not_spawned_arc hi.arc hk (by rw [hpc]; exact fun h => by cases h)
  have hmain : s.main.pc.isBlocked = false := by
    cases hm : s.main.pc with
    | blocked cr ce =>
      obtain ⟨h1, h2⟩ := hi.mainCh cr ce hm
      have := hready cr ce hm
      rw [h1, h2, hs, handoff_sync] at this
      cases this
    | _ => rfl
  refine ⟨Or.inr harc, ?_, ?_, hi.mainCh, ?_, ?_, hi.n, hi.i, ?_, hi.mpc, ?_⟩
  · rw [← hi.subs]; exact map_set_same Worker.link _ _ w _ hk rfl
  · exact forall_mem_set hi.ok (Or.inr ⟨c, hc, Or.inr (Or.inl (by rw [hs]))⟩)
  · intro hc; exact absurd hctx hc
  · intro hb
    rw [show (s.setPc k w (.blocked snd)).main = s.main from rfl, hmain] at hb
    cases hb
  · have := filterMap_set_none (fun w : Worker => w.pc.sentOutcome) s.workers k w
      { w with pc := .blocked snd } hk (by simp [hpc, Pc.sentOutcome]) rfl
    show s.main.received.Perm (List.filterMap _ (s.workers.set k _))
    rw [this]; exact hi.perm
  · intro hc
    exact forall_mem_set (hi.live hc) rfl

theorem inv_mainDone {links : List String} {s t : System}
    (hi : Inv parse wayback links s) (h : step parse wayback s .mainDone = some t) :
    Inv parse wayback links t := by
  obtain ⟨cause, hm, hctx, rfl⟩ := step_mainDone_inv parse wayback h
  rw [enterSelect_of_inv hi.arc]
  refine ⟨Or.inr ⟨rfl, rfl⟩, hi.subs, hi.ok, ?_, ?_, ?_, hi.n, hi.i, hi.perm, hctx, ?_⟩
  · intro cr ce hpc; cases hpc
  · intro hc
    exact ⟨(hi.awake hc).1, rfl⟩
  · intro hb; cases hb
  · intro hc
    rw [show s.ctx = none from hc] at hctx
    cases hctx

theorem inv_mainPark {links : List String} {s t : System}
    (hi : Inv parse wayback links s) (h : step parse wayback s .mainPark = some t) :
    Inv parse wayback links t := by
  obtain ⟨hm, hctx, hready, rfl⟩ := step_mainPark_inv parse wayback h
  rw [enterSelect_of_inv hi.arc] at hready ⊢
  have hnb : ∀ w ∈ s.workers, w.pc.isBlocked = false := by
    intro w hw
    cases hpc : w.pc with
    | blocked snd =>
      obtain ⟨c, hs, -⟩ := ok_blocked parse wayback (hi.ok w hw) hpc
      have := hready w hw snd hpc
      rw [hs] at this
      have h2 := handoff_sync parse wayback c w.link
      simp only [h2] at this
      cases this
    | _ => rfl
  have hmpc := hi.mpc
  rw [hm] at hmpc
  refine ⟨Or.inr ⟨rfl, rfl⟩, hi.subs, hi.ok, ?_, ?_, ?_, hi.n, hi.i, hi.perm, hmpc, hi.live⟩
  · intro cr ce hpc
    cases hpc
    exact ⟨rfl, rfl⟩
  · intro hc; exact absurd hctx hc
  · intro _; exact hnb

theorem observe_recv_not_blocked (c : Collector) (o : Outcome) :
    (c.observe (.recv o)).pc.isBlocked = false := by
  rw [(observe_recv c o).2.2.2]
  split <;> rfl

theorem observe_recv_mpc {c : Collector} (o : Outcome) (h : c.i < c.n) (ctx : Option GoError) :
    match (c.observe (.recv o)).pc with
    | .select => (c.observe (.recv o)).i < (c.observe (.recv o)).n
    | .blocked _ _ => (c.observe (.recv o)).i < (c.observe (.recv o)).n
    | .returned none => (c.observe (.recv o)).i = (c.observe (.recv o)).n
    | .returned (some e) => ctx = some e := by
  obtain ⟨hn, hi, -, hp⟩ := observe_recv c o
  rw [hp, hn, hi]
  split
  · rename_i h1
    split at h1
    · assumption
    · cases h1
  · rename_i h1
    split at h1 <;> cases h1
  · rename_i h1
    split at h1
    · cases h1
    · omega
  · rename_i h1
    split at h1 <;> cases h1

theorem inv_send {links : List String} {s t : System} {k : Nat}
    (hi : Inv parse wayback links s) (h : step parse wayback s (.send k) = some t) :
    Inv parse wayback links t := by
  obtain ⟨w, snd, cr, ce, hk, hpc, hm, -, rfl⟩ := step_send_inv parse wayback h
  have hwok := hi.ok w (List.get?_mem hk)
  obtain ⟨c, hs, hc⟩ := ok_select parse wayback hwok hpc
  have harc := not_spawned_arc hi.arc hk (by rw [hpc]; exact fun h => by cases h)
  obtain ⟨hn, hidx, hrecv, hp⟩ := observe_recv s.main snd.val
  have hnb := observe_recv_not_blocked s.main snd.val
  have hmpc := hi.mpc
  rw [hm] at hmpc
  refine ⟨Or.inr harc, ?_, ?_, ?_, ?_, ?_, ?_, ?_, ?_, ?_, ?_⟩
  · rw [← hi.subs]; exact map_set_same Worker.link _ _ w _ hk rfl
  · exact forall_mem_set hi.ok (Or.inr ⟨c, hc, Or.inr (Or.inr (Or.inl (by rw [hs])))⟩)
  · intro cr' ce' hpc'
    rw [show (s.main.observe (.recv snd.val)).pc = .blocked cr' ce' from hpc'] at hnb
    cases hnb
  · intro hc
    exact ⟨forall_mem_set (hi.awake hc).1 rfl, hnb⟩
  · intro hb
    rw [show (s.main.observe (.recv snd.val)).pc.isBlocked = true from hb] at hnb
    cases hnb
  · show (s.main.observe (.recv snd.val)).n = _
    rw [hn]; exact hi.n
  · show (s.main.observe (.recv snd.val)).i = (s.main.observe (.recv snd.val)).received.length
    rw [hidx, hrecv, hi.i]; simp
  · show (s.main.observe (.recv snd.val)).received.Perm (List.filterMap _ (s.workers.set k _))
    rw [hrecv]
    exact (List.Perm.append_right _ hi.perm).trans
      (filterMap_set_some (fun w : Worker => w.pc.sentOutcome) s.workers k w
        { w with pc := .sent snd.val } snd.val hk (by simp [hpc, Pc.sentOutcome]) rfl).symm
  · exact observe_recv_mpc snd.val hmpc _
  · intro hc
    exact forall_mem_set (hi.live hc) rfl

theorem inv_recv {links : List String} {s t : System} {k : Nat}
    (hi : Inv parse wayback links s) (h : step parse wayback s (.recv k) = some t) :
    Inv parse wayback links t := by
  obtain ⟨w, snd, hm, hk, hpc, -, rfl⟩ := step_recv_inv parse wayback h
  rw [enterSelect_of_inv hi.arc]
  have hwok := hi.ok w (List.get?_mem hk)
  obtain ⟨c, hs, hc⟩ := ok_blocked parse wayback hwok hpc
  obtain ⟨hn, hidx, hrecv, hp⟩ := observe_recv s.main snd.val
  have hnb := observe_recv_not_blocked s.main snd.val
  have hmpc := hi.mpc
  rw [hm] at hmpc
  refine ⟨Or.inr ⟨rfl, rfl⟩, ?_, ?_, ?_, ?_, ?_, ?_, ?_, ?_, ?_, ?_⟩
  · rw [← hi.subs]; exact map_set_same Worker.link _ _ w _ hk rfl
  · exact forall_mem_set hi.ok (Or.inr ⟨c, hc, Or.inr (Or.inr (Or.inl (by rw [hs])))⟩)
  · intro cr' ce' hpc'
    rw [show (s.main.observe (.recv snd.val)).pc = .blocked cr' ce' from hpc'] at hnb
    cases hnb
  · intro hc
    exact ⟨forall_mem_set (hi.awake hc).1 rfl, hnb⟩
  · intro hb
    rw [show (s.main.observe (.recv snd.val)).pc.isBlocked = true from hb] at hnb
    cases hnb
  · show (s.main.observe (.recv snd.val)).n = _
    rw [hn]; exact hi.n
  · show (s.main.observe (.recv snd.val)).i = (s.main.observe (.recv snd.val)).received.length
    rw [hidx, hrecv, hi.i]; simp
  · show (s.main.observe (.recv snd.val)).received.Perm (List.filterMap _ (s.workers.set k _))
    rw [hrecv]
    exact (List.Perm.append_right _ hi.perm).trans
      (filterMap_set_some (fun w : Worker => w.pc.sentOutcome) s.workers k w
        { w with pc := .sent snd.val } snd.val hk (by simp [hpc, Pc.sentOutcome]) rfl).symm
  · exact observe_recv_mpc snd.val hmpc _
  · intro hc
    exact forall_mem_set (hi.live hc) rfl

theorem inv_step {links : List String} {s t : System} {a : Action}
    (hi : Inv parse wayback links s) (h : step parse wayback s a = some t) :
    Inv parse wayback links t := by
  cases a with
  | cancel cause => exact inv_cancel parse wayback hi h
  | run k => exact inv_run parse wayback hi h
  | done k => exact inv_done parse wayback hi h
  | send k => exact inv_send parse wayback hi h
  | park k => exact inv_park parse wayback hi h
  | mainDone => exact inv_mainDone parse wayback hi h
  | recv k => exact inv_recv parse wayback hi h
  | mainPark => exact inv_mainPark parse wayback hi h

theorem inv_spawn (ctx : Option GoError) (src : String) (links : List String) :
    Inv parse wayback (src :: links) (spawn ctx src links) := by
  have hmain : (spawn ctx src links).main = ⟨links.length + 1, 0, .select, [], [], []⟩ := by
    simp [spawn_eq, Collector.start, Collector.loop]
  have hws : (spawn ctx src links).workers =
      (src :: links).map fun l => ⟨l, .spawned, []⟩ := by rw [spawn_eq]
  have harc : (spawn ctx src links).arc = {} ∧ (spawn ctx src links).heap = 0 := by
    rw [spawn_eq]; exact ⟨rfl, rfl⟩
  have hw : ∀ w ∈ (spawn ctx src links).workers, w.pc = .spawned ∧ w.calls = [] := by
    intro w hw
    rw [hws] at hw
    obtain ⟨l, -, rfl⟩ := List.mem_map.mp hw
    exact ⟨rfl, rfl⟩
  refine ⟨Or.inl ⟨harc.1, harc.2, fun w h => (hw w h).1, by rw [hmain]; rfl⟩, ?_, ?_, ?_, ?_, ?_,
    ?_,
    ?_, ?_, ?_, ?_⟩
  · rw [hws]; simp [List.map_map, Function.comp_def]
  · intro w h; exact Or.inl (hw w h)
  · intro cr ce hpc; rw [hmain] at hpc; cases hpc
  · intro _
    refine ⟨fun w h => by rw [(hw w h).1]; rfl, by rw [hmain]; rfl⟩
  · intro hb; rw [hmain] at hb; cases hb
  · rw [hmain]; rfl
  · rw [hmain]; rfl
  · rw [hmain]
    have : (spawn ctx src links).workers.filterMap (fun w => w.pc.sentOutcome) = [] := by
      rw [List.filterMap_eq_nil_iff]
      intro w h
      rw [(hw w h).1]; rfl
    rw [this]
  · rw [hmain]; simp
  · intro _ w h; rw [(hw w h).1]; rfl

theorem inv_exec {links : List String} (acts : List Action) :
    ∀ {s t : System}, Inv parse wayback links s → exec parse wayback s acts = some t →
      Inv parse wayback links t := by
  induction acts with
  | nil => intro s t hi h; cases h; exact hi
  | cons a as ih =>
    intro s t hi h
    simp only [exec] at h
    split at h
    · cases h
    · rename_i u hu
      exact ih (inv_step parse wayback hi hu) h

/-! ### Termination and progress without cancellation -/

theorem step_ctx {s t : System} {a : Action} (h : step parse wayback s a = some t)
    (ha : a.isCancel = false) : t.ctx = s.ctx := by
  cases a with
  | cancel cause => cases ha
  | run k => obtain ⟨w, -, -, rfl⟩ := step_run_inv parse wayback h; rfl
  | done k => obtain ⟨w, snd, cause, -, -, -, rfl⟩ := step_done_inv parse wayback h; rfl
  | send k => obtain ⟨w, snd, cr, ce, -, -, -, -, rfl⟩ := step_send_inv parse wayback h; rfl
  | park k => obtain ⟨w, snd, -, -, -, -, rfl⟩ := step_park_inv parse wayback h; rfl
  | mainDone => obtain ⟨cause, -, -, rfl⟩ := step_mainDone_inv parse wayback h; rfl
  | recv k => obtain ⟨w, snd, -, -, -, -, rfl⟩ := step_recv_inv parse wayback h; rfl
  | mainPark => obtain ⟨-, -, -, rfl⟩ := step_mainPark_inv parse wayback h; rfl

theorem observe_recv_weight (c : Collector) (o : Outcome) :
    (c.observe (.recv o)).weight ≤ 2 * (c.n - c.i) := by
  obtain ⟨hn, hi, -, hp⟩ := observe_recv c o
  unfold Collector.weight
  rw [hp, hn, hi]
  split
  · rename_i h1
    split at h1
    · omega
    · cases h1
  · rename_i h1
    split at h1 <;> cases h1
  · omega

theorem weight_set {s : System} {k : Nat} {w : Worker} (v : Worker)
    (hk : s.workers.get? k = some w) :
    ((s.workers.set k v).map Worker.weight).sum + w.weight =
      (s.workers.map Worker.weight).sum + v.weight :=
  sum_map_set Worker.weight s.workers k w v hk

theorem step_weight {s t : System} {a : Action} (h : step parse wayback s a = some t)
    (ha : a.isCancel = false) : t.weight < s.weight := by
  cases a with
  | cancel cause => cases ha
  | run k =>
    obtain ⟨w, hk, hpc, rfl⟩ := step_run_inv parse wayback h
    have := weight_set { w with
      pc := .select (s.arc.archive parse wayback s.ctx s.heap w.link).send
      calls := w.calls ++ (s.arc.archive parse wayback s.ctx s.heap w.link).calls } hk
    have hw : w.weight = 3 := by simp [Worker.weight, hpc]
    simp only [System.weight]
    simp only [Worker.weight] at this hw ⊢
    omega
  | done k =>
    obtain ⟨w, snd, cause, hk, hpc, -, rfl⟩ := step_done_inv parse wayback h
    have := weight_set { w with pc := .dropped snd.val } hk
    have hw : w.weight = 2 := by simp [Worker.weight, hpc]
    simp only [System.weight, System.setPc]
    simp only [Worker.weight] at this hw ⊢
    omega
  | send k =>
    obtain ⟨w, snd, cr, ce, hk, hpc, hm, -, rfl⟩ := step_send_inv parse wayback h
    have := weight_set { w with pc := .sent snd.val } hk
    have hw : w.weight = 2 := by simp [Worker.weight, hpc]
    have hmw := observe_recv_weight s.main snd.val
    have hm0 : s.main.weight = 2 * (s.main.n - s.main.i) + 1 := by simp [Collector.weight, hm]
    simp only [System.weight, System.setPc]
    simp only [Worker.weight] at this hw ⊢
    omega
  | park k =>
    obtain ⟨w, snd, hk, hpc, -, -, rfl⟩ := step_park_inv parse wayback h
    have := weight_set { w with pc := .blocked snd } hk
    have hw : w.weight = 2 := by simp [Worker.weight, hpc]
    simp only [System.weight, System.setPc]
    simp only [Worker.weight] at this hw ⊢
    omega
  | mainDone =>
    obtain ⟨cause, hm, -, rfl⟩ := step_mainDone_inv parse wayback h
    have hm0 : s.main.weight = 2 * (s.main.n - s.main.i) + 2 := by simp [Collector.weight, hm]
    simp only [System.weight, System.enterSelect, Collector.observe, Collector.weight] at hm0 ⊢
    omega
  | recv k =>
    obtain ⟨w, snd, hm, hk, hpc, -, rfl⟩ := step_recv_inv parse wayback h
    have := weight_set { w with pc := .sent snd.val } hk
    have hw : w.weight = 1 := by simp [Worker.weight, hpc]
    have hmw := observe_recv_weight s.main snd.val
    have hm0 : s.main.weight = 2 * (s.main.n - s.main.i) + 2 := by simp [Collector.weight, hm]
    simp only [System.weight, System.setPc, System.enterSelect]
    simp only [Worker.weight] at this hw ⊢
    omega
  | mainPark =>
    obtain ⟨hm, -, -, rfl⟩ := step_mainPark_inv parse wayback h
    have hm0 : s.main.weight = 2 * (s.main.n - s.main.i) + 2 := by simp [Collector.weight, hm]
    simp only [System.weight, System.enterSelect, Collector.weight] at hm0 ⊢
    omega

theorem exec_weight (acts : List Action) :
    ∀ {s t : System}, exec parse wayback s acts = some t → (∀ a ∈ acts, a.isCancel = false) →
      acts.length + t.weight ≤ s.weight ∧ t.ctx = s.ctx := by
  induction acts with
  | nil => intro s t h _; cases h; exact ⟨by simp, rfl⟩
  | cons a as ih =>
    intro s t h hnc
    simp only [exec] at h
    split at h
    · cases h
    · rename_i u hu
      have ha := hnc a (List.mem_cons_self _ _)
      obtain ⟨h1, h2⟩ := ih h (fun b hb => hnc b (List.mem_cons_of_mem _ hb))
      have h3 := step_weight parse wayback hu ha
      have h4 := step_ctx parse wayback hu ha
      refine ⟨?_, h2.trans h4⟩
      simp only [List.length_cons]
      omega

theorem spawn_weight (ctx : Option GoError) (src : String) (links : List String) :
    (spawn ctx src links).weight = 5 * (links.length + 1) + 2 := by
  have hmain : (spawn ctx src links).main = ⟨links.length + 1, 0, .select, [], [], []⟩ := by
    simp [spawn_eq, Collector.start, Collector.loop]
  have hsum : ∀ l : List String,
      ((l.map fun l => (⟨l, .spawned, []⟩ : Worker)).map Worker.weight).sum = 3 * l.length := by
    intro l
    induction l with
    | nil => rfl
    | cons x xs ih =>
      simp only [List.map_cons, List.sum_cons, List.length_cons, ih, Worker.weight]
      omega
  unfold System.weight
  rw [hmain]
  have := hsum (src :: links)
  simp only [spawn_eq, Collector.weight] at this ⊢
  rw [this]
  simp only [List.length_cons]
  omega

theorem exists_none_of_length_lt {α β : Type} (f : α → Option β) :
    ∀ l : List α, (l.filterMap f).length < l.length → ∃ x ∈ l, f x = none
  | [], h => by simp at h
  | x :: l, h => by
    cases hx : f x with
    | none => exact ⟨x, List.mem_cons_self _ _, hx⟩
    | some b =>
      simp only [List.filterMap_cons, hx, List.length_cons, Nat.add_lt_add_iff_right] at h
      obtain ⟨y, hy, hfy⟩ := exists_none_of_length_lt f l h
      exact ⟨y, List.mem_cons_of_mem _ hy, hfy⟩

theorem all_some_of_length_eq {α β : Type} (f : α → Option β) :
    ∀ l : List α, (l.filterMap f).length = l.length → ∀ x ∈ l, ∃ b, f x = some b
  | [], _ => by simp
  | x :: l, h => by
    have hle := List.length_filterMap_le f l
    cases hx : f x with
    | none =>
      simp only [List.filterMap_cons, hx, List.length_cons] at h
      omega
    | some b =>
      simp only [List.filterMap_cons, hx, List.length_cons, Nat.add_right_cancel_iff] at h
      intro y hy
      rcases List.mem_cons.mp hy with rfl | hy
      · exact ⟨b, hx⟩
      · exact all_some_of_length_eq f l h y hy

theorem forall₂_sent : ∀ l : List Worker,
    (∀ w ∈ l, ∃ o, w.pc = .sent o ∧ Matches w.link o) →
    List.Forall₂ (fun w o => w.pc = .sent o ∧ Matches w.link o) l
      (l.filterMap fun w => w.pc.sentOutcome)
  | [], _ => List.Forall₂.nil
  | w :: l, h => by
    obtain ⟨o, ho, hm⟩ := h w (List.mem_cons_self _ _)
    have : (w :: l).filterMap (fun w => w.pc.sentOutcome) =
        o :: l.filterMap fun w => w.pc.sentOutcome := by
      simp [List.filterMap_cons, ho, Pc.sentOutcome]
    rw [this]
    exact List.Forall₂.cons ⟨ho, hm⟩ (forall₂_sent l fun v hv => h v (List.mem_cons_of_mem _ hv))

theorem sentOutcome_some {pc : Pc} {o : Outcome} (h : pc.sentOutcome = some o) : pc = .sent o := by
  cases pc <;> simp [Pc.sentOutcome] at h
  rw [h]

theorem final_state {links : List String} {s : System} (hi : Inv parse wayback links s)
    (hret : s.main.pc = .returned none) :
    s.main.i = links.length ∧ s.main.received.length = links.length ∧
      ∃ os, List.Forall₂ (fun w o => w.pc = .sent o ∧ Matches w.link o) s.workers os ∧
        s.main.received.Perm os := by
  have hm := hi.mpc
  rw [hret] at hm
  have hin : s.main.i = links.length := by
    have h1 : s.main.i = s.main.n := hm
    rw [h1, hi.n]
  have hlen : s.workers.length = links.length := by
    rw [← hi.subs, List.length_map]
  have hrl : s.main.received.length = links.length := by rw [← hi.i, hin]
  have hfl : (s.workers.filterMap fun w => w.pc.sentOutcome).length = s.workers.length := by
    rw [← hi.perm.length_eq, hrl, hlen]
  refine ⟨hin, hrl, _, forall₂_sent s.workers ?_, hi.perm⟩
  intro w hw
  obtain ⟨o, ho⟩ := all_some_of_length_eq _ s.workers hfl w hw
  have hpc := sentOutcome_some ho
  obtain ⟨c, hc, -⟩ := ok_sent parse wayback (hi.ok w hw) hpc
  exact ⟨o, hpc, hc ▸ handoff_matches parse wayback c w.link⟩

theorem progress {links : List String} {s : System} (hi : Inv parse wayback links s)
    (hctx : s.ctx = none) (hne : s.main.pc ≠ .returned none) :
    ∃ a t, a.isCancel = false ∧ step parse wayback s a = some t := by
  have hes := enterSelect_of_inv hi.arc
  cases hm : s.main.pc with
  | select =>
    by_cases hb : ∃ w ∈ s.workers, w.pc.isBlocked = true
    · obtain ⟨w, hw, hwb⟩ := hb
      obtain ⟨k, hk⟩ := List.get?_of_mem hw
      cases hpc : w.pc with
      | blocked snd =>
        obtain ⟨c, hs, -⟩ := ok_blocked parse wayback (hi.ok w hw) hpc
        have hstep : ∃ t, step parse wayback s (.recv k) = some t := by
          simp only [step, hm, hk, hpc, hes, hs, handoff_sync, if_true]
          exact ⟨_, rfl⟩
        obtain ⟨t, ht⟩ := hstep
        exact ⟨.recv k, t, rfl, ht⟩
      | _ => rw [hpc] at hwb; cases hwb
    · have hany : (s.workers.any fun w =>
          match w.pc with
          | .blocked snd => canSync snd s.enterSelect.1 s.enterSelect.2.1
          | _ => false) = false := by
        rw [List.any_eq_false]
        intro w hw
        cases hpc : w.pc with
        | blocked snd => exact absurd ⟨w, hw, by rw [hpc]; rfl⟩ hb
        | _ => simp
      have hstep : ∃ t, step parse wayback s .mainPark = some t := by
        simp only [step, hm, hctx, Option.isNone_none]
        exact ⟨_, if_pos ⟨trivial, hany⟩⟩
      obtain ⟨t, ht⟩ := hstep
      exact ⟨.mainPark, t, rfl, ht⟩
  | blocked cr ce =>
    obtain ⟨hcr, hce⟩ := hi.mainCh cr ce hm
    have hmpc := hi.mpc
    rw [hm] at hmpc
    have hlt : (s.workers.filterMap fun w => w.pc.sentOutcome).length < s.workers.length := by
      have h1 : s.main.i < s.main.n := hmpc
      rw [← hi.perm.length_eq, ← hi.i, show s.workers.length = links.length by
        rw [← hi.subs, List.length_map], ← hi.n]
      exact h1
    obtain ⟨w, hw, hnone⟩ := exists_none_of_length_lt _ s.workers hlt
    obtain ⟨k, hk⟩ := List.get?_of_mem hw
    cases hpc : w.pc with
    | spawned =>
      have hstep : ∃ t, step parse wayback s (.run k) = some t := by
        simp only [step, hk, hpc]
        exact ⟨_, rfl⟩
      obtain ⟨t, ht⟩ := hstep
      exact ⟨.run k, t, rfl, ht⟩
    | select snd =>
      obtain ⟨c, hs, -⟩ := ok_select parse wayback (hi.ok w hw) hpc
      have hstep : ∃ t, step parse wayback s (.send k) = some t := by
        simp only [step, hk, hpc, hm, hcr, hce, hs, handoff_sync, if_true]
        exact ⟨_, rfl⟩
      obtain ⟨t, ht⟩ := hstep
      exact ⟨.send k, t, rfl, ht⟩
    | blocked snd =>
      have := hi.excl (by rw [hm]; rfl) w hw
      rw [hpc] at this; cases this
    | sent o => rw [hpc] at hnone; cases hnone
    | dropped o =>
      have := hi.live hctx w hw
      rw [hpc] at this; cases this
  | returned e =>
    cases e with
    | none => exact absurd hm hne
    | some c =>
      have hmpc := hi.mpc
      rw [hm] at hmpc
      rw [hctx] at hmpc
      cases hmpc

theorem completes {links : List String} (n : Nat) :
    ∀ {s : System}, s.weight ≤ n → Inv parse wayback links s → s.ctx = none →
      ∃ more t, (∀ a ∈ more, a.isCancel = false) ∧ exec parse wayback s more = some t ∧
        t.main.pc = .returned none := by
  induction n with
  | zero =>
    intro s hw hi hctx
    by_cases hret : s.main.pc = .returned none
    · exact ⟨[], s, by simp, rfl, hret⟩
    · obtain ⟨a, t, ha, ht⟩ := progress parse wayback hi hctx hret
      have := step_weight parse wayback ht ha
      omega
  | succ n ih =>
    intro s hw hi hctx
    by_cases hret : s.main.pc = .returned none
    · exact ⟨[], s, by simp, rfl, hret⟩
    · obtain ⟨a, t, ha, ht⟩ := progress parse wayback hi hctx hret
      have hlt := step_weight parse wayback ht ha
      obtain ⟨more, u, hm, hu, hr⟩ := ih (by omega) (inv_step parse wayback hi ht)
        ((step_ctx parse wayback ht ha).trans hctx)
      refine ⟨a :: more, u, ?_, ?_, hr⟩
      · intro b hb
        rcases List.mem_cons.mp hb with rfl | hb
        · exact ha
        · exact hm b hb
      · simp only [exec, ht]; exact hu

/-! ### The claims about the running program -/

/-- C1. Without cancellation every submission yields exactly one outcome and
the loop receives them all.  Let `s` be the state after any schedule `acts` of
moves, none a cancellation, of the program `run` starts for `src` and `links`
with a live context.  Then the schedule is no longer than `5 * (len(links)+1)
+ 2` moves; while the loop has not returned `nil` some move other than a
cancellation is possible; some further moves, none a cancellation, make the loop
return `nil`; and once the loop has returned `nil` the goroutines are those of
`src` and `links` in order, each has delivered exactly one outcome, a `Result`
whose `Link` is its link or an error whose message contains its link, and
the `len(links)+1` values the loop received are these outcomes in some
order. -/
theorem all_outcomes_collected (src : String) (links : List String) (acts : List Action)
    (s : System)
    (hexec : exec parse wayback (spawn none src links) acts = some s)
    (hnc : ∀ a ∈ acts, a.isCancel = false) :
    acts.length + s.weight ≤ 5 * (links.length + 1) + 2 ∧
    (s.main.pc ≠ .returned none →
      ∃ a t, a.isCancel = false ∧ step parse wayback s a = some t) ∧
    (∃ more t, (∀ a ∈ more, a.isCancel = false) ∧ exec parse wayback s more = some t ∧
      t.main.pc = .returned none) ∧
    (s.main.pc = .returned none →
      s.workers.map Worker.link = src :: links ∧
      s.main.i = links.length + 1 ∧ s.main.received.length = links.length + 1 ∧
      ∃ os, List.Forall₂ (fun w o => w.pc = .sent o ∧ Matches w.link o) s.workers os ∧
        s.main.received.Perm os) := by
  have hi := inv_exec parse wayback acts (inv_spawn parse wayback none src links) hexec
  obtain ⟨hw, hctx⟩ := exec_weight parse wayback acts hexec hnc
  rw [spawn_weight] at hw
  have hctx' : s.ctx = none := by rw [hctx, spawn_eq]
  refine ⟨hw, progress parse wayback hi hctx', completes parse wayback s.weight le_rfl hi hctx', ?_⟩
  intro hret
  obtain ⟨h1, h2, h3⟩ := final_state parse wayback hi hret
  exact ⟨hi.subs, h1, h2, h3⟩

/-- C1, at an explicit schedule for the source URL and two links: the loop
returns `nil` with two lines on standard output and one on standard error. -/
theorem all_outcomes_collected_witness :
    ∃ s, exec exampleParse exampleWayback
        (spawn none "https://www.reddit.com/r/golang/comments/abc123.json"
          ["http://a.example", "http://b.example"])
        [.run 0, .mainPark, .send 0, .run 2, .run 1, .park 2, .recv 2, .park 1, .recv 1] =
        some s ∧
      s.main.pc = .returned none ∧
      s.main.stdout =
        ["https://www.reddit.com/r/golang/comments/abc123.json -> " ++
            "http://archive.example/www.reddit.com/r/golang/comments/abc123.json\n",
          "http://a.example -> http://archive.example/a\n"] ∧
      s.main.stderr = ["http://b.example -> archive: remote rejected\n"] ∧
      s.main.received.length = 3 ∧
      ∃ os, List.Forall₂ (fun w o => w.pc = .sent o ∧ Matches w.link o) s.workers os ∧
        s.main.received.Perm os :=
  ⟨_, rfl, rfl, rfl, rfl,
    ((all_outcomes_collected exampleParse exampleWayback
      "https://www.reddit.com/r/golang/comments/abc123.json"
      ["http://a.example", "http://b.example"]
      [.run 0, .mainPark, .send 0, .run 2, .run 1, .park 2, .recv 2, .park 1, .recv 1] _ rfl
      (by decide)).2.2.2 rfl).2.2⟩

theorem get?_set_self {α : Type} {l : List α} {k : Nat} {w : α} (v : α)
    (h : l.get? k = some w) : (l.set k v).get? k = some v := by
  have hlt : k < l.length := by
    by_contra hc
    rw [List.get?_eq_none.mpr (Nat.le_of_not_lt hc)] at h
    cases h
  simp [List.getElem?_set, hlt]

theorem get?_set_other {α : Type} (l : List α) {k j : Nat} (v : α) (h : j ≠ k) :
    (l.set k v).get? j = l.get? j := by
  simp [List.getElem?_set, Ne.symm h]

theorem cancel_wakes {s t : System} {c : GoError}
    (h : step parse wayback s (.cancel c) = some t) :
    t.arc = s.arc ∧ t.main.received = s.main.received ∧
      ∀ (j : Nat) (v : Worker) (b : Send), s.workers.get? j = some v → v.pc = .blocked b →
        t.workers.get? j = some { v with pc := .dropped b.val } := by
  obtain ⟨-, rfl⟩ := step_cancel_inv parse wayback h
  refine ⟨rfl, (main_wake_fields s.main c).2.2, ?_⟩
  intro j v b hj hb
  show (s.workers.map Worker.wake).get? j = _
  rw [List.get?_eq_getElem?, List.getElem?_map, ← List.get?_eq_getElem?, hj]
  show some v.wake = _
  unfold Worker.wake
  simp only [hb]

/-- C6. Once the context is cancelled a goroutine in its hand-off is never
blocked and abandons.  Let `s` be any state of the program of `run` in which
the context is cancelled, and let goroutine `k` be in its hand-off with the
send `snd`.  Then no goroutine is blocked; goroutine `k` stands at the entry of
its `select`; whatever the state of the loop it can take `<-ctx.Done()`, and
can neither send nor block nor be received from; taking it changes nothing
but goroutine `k` itself, which has then returned without its value delivered
and has no further move; the context cannot be cancelled a second time; and
the move that cancels the context changes neither the channels nor the
values the loop has received, and makes every goroutine blocked in its
hand-off return without delivery. -/
theorem cancelled_handoff_abandons (ctx0 : Option GoError) (src : String)
    (links : List String) (acts : List Action) (s : System) (cause : GoError) (k : Nat)
    (w : Worker) (snd : Send)
    (hexec : exec parse wayback (spawn ctx0 src links) acts = some s)
    (hctx : s.ctx = some cause) (hk : s.workers.get? k = some w)
    (hpc : w.pc = .select snd ∨ w.pc = .blocked snd) :
    (∀ v ∈ s.workers, v.pc.isBlocked = false) ∧
    w.pc = .select snd ∧
    step parse wayback s (.done k) = some (s.setPc k w (.dropped snd.val)) ∧
    step parse wayback s (.send k) = none ∧
    step parse wayback s (.park k) = none ∧
    step parse wayback s (.recv k) = none ∧
    step parse wayback s (.run k) = none ∧
    (s.setPc k w (.dropped snd.val)).main = s.main ∧
    (s.setPc k w (.dropped snd.val)).arc = s.arc ∧
    (s.setPc k w (.dropped snd.val)).heap = s.heap ∧
    (s.setPc k w (.dropped snd.val)).ctx = s.ctx ∧
    (∀ j, j ≠ k → (s.setPc k w (.dropped snd.val)).workers.get? j = s.workers.get? j) ∧
    (s.setPc k w (.dropped snd.val)).workers.get? k = some { w with pc := .dropped snd.val } ∧
    (∀ a ∈ [Action.run k, .done k, .send k, .park k, .recv k],
      step parse wayback (s.setPc k w (.dropped snd.val)) a = none) ∧
    (∀ (t : System) (again : GoError), step parse wayback s (.cancel again) ≠ some t) ∧
    (∀ (s0 t : System) (c : GoError), step parse wayback s0 (.cancel c) = some t →
      t.arc = s0.arc ∧ t.main.received = s0.main.received ∧
        ∀ (j : Nat) (v : Worker) (b : Send), s0.workers.get? j = some v → v.pc = .blocked b →
          t.workers.get? j = some { v with pc := .dropped b.val }) := by
  have hi := inv_exec parse wayback acts (inv_spawn parse wayback ctx0 src links) hexec
  have hne : s.ctx ≠ none := by rw [hctx]; exact fun h => by cases h
  obtain ⟨hwb, hmb⟩ := hi.awake hne
  have hsel : w.pc = .select snd := by
    rcases hpc with h | h
    · exact h
    · have := hwb w (List.get?_mem hk)
      rw [h] at this; cases this
  have hk' : (s.setPc k w (.dropped snd.val)).workers.get? k =
      some { w with pc := .dropped snd.val } := get?_set_self _ hk
  refine ⟨hwb, hsel, ?_, ?_, ?_, ?_, ?_, rfl, rfl, rfl, rfl, ?_, hk', ?_, ?_,
    fun s0 t c h => cancel_wakes parse wayback h⟩
  · simp only [step, hk, hsel, hctx]
  · simp only [step, hk, hsel]
    cases hm : s.main.pc with
    | blocked cr ce => rw [hm] at hmb; cases hmb
    | _ => rfl
  · simp only [step, hk, hsel, hctx]
    simp
  · simp only [step, hk]
    cases s.main.pc <;> simp [hsel]
  · simp only [step, hk, hsel]
  · intro j hj
    exact get?_set_other s.workers _ hj
  · intro a ha
    simp only [List.mem_cons, List.mem_singleton, List.not_mem_nil, or_false] at ha
    rcases ha with rfl | rfl | rfl | rfl | rfl
    · simp only [step, hk']
    · simp only [step, hk']
    · simp only [step, hk']
    · simp only [step, hk']
    · simp only [step, hk']
      cases (s.setPc k w (.dropped snd.val)).main.pc <;> simp
  · intro t again h
    simp only [step, hctx] at h
    cases h

/-- C6, at an explicit schedule: the goroutine blocked when the context is
cancelled has returned without delivery, the goroutine entering its `select`
afterwards can only take `<-ctx.Done()`. -/
theorem cancelled_handoff_abandons_witness :
    ∃ s, exec exampleParse exampleWayback
        (spawn none "https://www.reddit.com/r/golang/comments/abc123.json" ["http://a.example"])
        [.run 1, .run 0, .park 0, .cancel (errorsNew "context canceled")] = some s ∧
      s.workers.map Worker.pc =
        [.dropped (.result ⟨"https://www.reddit.com/r/golang/comments/abc123.json",
            "http://archive.example/www.reddit.com/r/golang/comments/abc123.json"⟩),
          .select ⟨some 0, .result ⟨"http://a.example", "http://archive.example/a"⟩⟩] ∧
      step exampleParse exampleWayback s (.done 1) =
        some (s.setPc 1 ⟨"http://a.example",
            .select ⟨some 0, .result ⟨"http://a.example", "http://archive.example/a"⟩⟩,
            [⟨"http", "a.example", "", "", ""⟩]⟩
          (.dropped (.result ⟨"http://a.example", "http://archive.example/a"⟩))) ∧
      step exampleParse exampleWayback s (.send 1) = none :=
  ⟨_, rfl, rfl,
    (cancelled_handoff_abandons exampleParse exampleWayback none
      "https://www.reddit.com/r/golang/comments/abc123.json" ["http://a.example"]
      [.run 1, .run 0, .park 0, .cancel (errorsNew "context canceled")] _
      (errorsNew "context canceled") 1
      ⟨"http://a.example",
        .select ⟨some 0, .result ⟨"http://a.example", "http://archive.example/a"⟩⟩,
        [⟨"http", "a.example", "", "", ""⟩]⟩
      ⟨some 0, .result ⟨"http://a.example", "http://archive.example/a"⟩⟩ rfl rfl rfl
      (Or.inl rfl)).2.2.1,
    (cancelled_handoff_abandons exampleParse exampleWayback none
      "https://www.reddit.com/r/golang/comments/abc123.json" ["http://a.example"]
      [.run 1, .run 0, .park 0, .cancel (errorsNew "context canceled")] _
      (errorsNew "context canceled") 1
      ⟨"http://a.example",
        .select ⟨some 0, .result ⟨"http://a.example", "http://archive.example/a"⟩⟩,
        [⟨"http", "a.example", "", "", ""⟩]⟩
      ⟨some 0, .result ⟨"http://a.example", "http://archive.example/a"⟩⟩ rfl rfl rfl
      (Or.inl rfl)).2.2.2.1⟩

theorem handles_of_inv {links : List String} {s : System} (hi : Inv parse wayback links s) :
    (s.arc.Results s.heap).1 = some 0 ∧ (s.arc.Errors s.heap).1 = some 1 := by
  rcases hi.arc with ⟨ha, hh, -, -⟩ | ⟨ha, hh⟩
  · rw [ha, hh]; exact ⟨rfl, rfl⟩
  · rw [ha, hh]; exact ⟨rfl, rfl⟩

theorem archive_ok_ok {link : String} {u : URL} {loc : String} (ctx : Option GoError)
    (a : Archiver) (heap : Nat) (hp : parse link = .ok u) (hw : wayback ctx u = .ok loc) :
    a.archive parse wayback ctx heap link =
      ⟨(a.init heap).1, (a.init heap).2, [u], ⟨(a.Results heap).1, .result ⟨link, loc⟩⟩⟩ := by
  unfold Archiver.archive
  simp only [hp, hw]
  rfl

theorem archive_ok_error {link : String} {u : URL} {e : GoError} (ctx : Option GoError)
    (a : Archiver) (heap : Nat) (hp : parse link = .ok u) (hw : wayback ctx u = .error e) :
    a.archive parse wayback ctx heap link =
      ⟨(a.init heap).1, (a.init heap).2, [u],
        ⟨(a.Errors heap).1, .error (Errorf (link ++ " -> archive: ") e)⟩⟩ := by
  unfold Archiver.archive
  simp only [hp, hw]
  rfl

theorem archive_error {link : String} {e : GoError} (ctx : Option GoError)
    (a : Archiver) (heap : Nat) (hp : parse link = .error e) :
    a.archive parse wayback ctx heap link =
      ⟨(a.init heap).1, (a.init heap).2, [],
        ⟨(a.Errors heap).1, .error (Errorf (link ++ " -> parse: ") e)⟩⟩ := by
  unfold Archiver.archive
  simp only [hp]
  rfl

theorem returned_stays {s t : System} {a : Action} {k : Nat} {w : Worker}
    (h : step parse wayback s a = some t) (hk : s.workers.get? k = some w)
    (hpc : w.pc.sentOutcome.isSome ∨ w.pc.isDropped = true) :
    t.workers.get? k = some w := by
  have hns : w.pc ≠ .spawned := by
    intro h; rw [h] at hpc; rcases hpc with h | h <;> cases h
  have hnsel : ∀ snd, w.pc ≠ .select snd := by
    intro snd h; rw [h] at hpc; rcases hpc with h | h <;> cases h
  have hnb : ∀ snd, w.pc ≠ .blocked snd := by
    intro snd h; rw [h] at hpc; rcases hpc with h | h <;> cases h
  have other : ∀ (j : Nat) (v v' : Worker) (pc : Pc), s.workers.get? j = some v → v.pc = pc →
      w.pc ≠ pc → (s.workers.set j v').get? k = some w := by
    intro j v v' pc hj hv hne
    have hjk : k ≠ j := by
      rintro rfl
      rw [hk] at hj
      cases hj
      exact hne hv
    rw [get?_set_other s.workers v' hjk]; exact hk
  cases a with
  | cancel cause =>
    obtain ⟨-, rfl⟩ := step_cancel_inv parse wayback h
    show (s.workers.map Worker.wake).get? k = some w
    rw [List.get?_eq_getElem?, List.getElem?_map, ← List.get?_eq_getElem?, hk]
    show some w.wake = some w
    unfold Worker.wake
    split
    · rename_i snd hb; exact absurd hb (hnb snd)
    · rfl
  | run j =>
    obtain ⟨v, hj, hv, rfl⟩ := step_run_inv parse wayback h
    exact other j v _ _ hj hv hns
  | done j =>
    obtain ⟨v, snd, cause, hj, hv, -, rfl⟩ := step_done_inv parse wayback h
    exact other j v _ _ hj hv (hnsel snd)
  | send j =>
    obtain ⟨v, snd, cr, ce, hj, hv, -, -, rfl⟩ := step_send_inv parse wayback h
    exact other j v _ _ hj hv (hnsel snd)
  | park j =>
    obtain ⟨v, snd, hj, hv, -, -, rfl⟩ := step_park_inv parse wayback h
    exact other j v _ _ hj hv (hnsel snd)
  | mainDone =>
    obtain ⟨cause, -, -, rfl⟩ := step_mainDone_inv parse wayback h
    exact hk
  | recv j =>
    obtain ⟨v, snd, -, hj, hv, -, rfl⟩ := step_recv_inv parse wayback h
    exact other j v _ _ hj hv (hnb snd)
  | mainPark =>
    obtain ⟨-, -, -, rfl⟩ := step_mainPark_inv parse wayback h
    exact hk

theorem handoff_calls_ok {link : String} {u : URL} (c : Option GoError)
    (hp : parse link = .ok u) : (handoff parse wayback c link).calls = [u] := by
  unfold handoff Archiver.archive
  simp only [hp]
  split <;> rfl

theorem reach_worker {ctx0 : Option GoError} {src : String} {links : List String}
    {acts : List Action} {s : System} {w : Worker}
    (hexec : exec parse wayback (spawn ctx0 src links) acts = some s) (hw : w ∈ s.workers) :
    (s.arc.Results s.heap).1 = some 0 ∧ (s.arc.Errors s.heap).1 = some 1 ∧
      ((w.pc = .spawned ∧ w.calls = []) ∨
        ∃ c : Option GoError,
          w.calls = (handoff parse wayback c w.link).calls ∧
            (w.pc = .select (handoff parse wayback c w.link).send ∨
              w.pc = .blocked (handoff parse wayback c w.link).send ∨
              w.pc = .sent (handoff parse wayback c w.link).send.val ∨
              w.pc = .dropped (handoff parse wayback c w.link).send.val)) := by
  have hi := inv_exec parse wayback acts (inv_spawn parse wayback ctx0 src links) hexec
  obtain ⟨h1, h2⟩ := handles_of_inv parse wayback hi
  exact ⟨h1, h2, hi.ok w hw⟩

/-- C2. For a link that `url.Parse` accepts as `u`: whenever `Wayback` returns
`loc` without error, `archive` calls `Wayback` once and enters the hand-off
that sends `Result{link, loc}`, with the submitted string as `Link`, on the
channel `Results` returns; and in every state of the program of `run` a
goroutine for that link has either not run, or has made that one call and,
if it returned `loc`, stands in or behind the hand-off of exactly
`Result{link, loc}` on the results channel `0`, which is not the errors
channel `1`. -/
theorem archive_success_offers_result (link : String) (u : URL) (hp : parse link = .ok u) :
    (∀ (ctx : Option GoError) (a : Archiver) (heap : Nat) (loc : String),
      wayback ctx u = .ok loc →
      a.archive parse wayback ctx heap link =
        ⟨(a.init heap).1, (a.init heap).2, [u], ⟨(a.Results heap).1, .result ⟨link, loc⟩⟩⟩) ∧
    (∀ (ctx0 : Option GoError) (src : String) (links : List String) (acts : List Action)
        (s : System) (w : Worker),
      exec parse wayback (spawn ctx0 src links) acts = some s → w ∈ s.workers →
      w.link = link →
      (s.arc.Results s.heap).1 = some 0 ∧ (s.arc.Errors s.heap).1 = some 1 ∧
      ((w.pc = .spawned ∧ w.calls = []) ∨
        ∃ c : Option GoError, w.calls = [u] ∧ ∀ loc : String, wayback c u = .ok loc →
          (w.pc = .select ⟨some 0, .result ⟨link, loc⟩⟩ ∨
            w.pc = .blocked ⟨some 0, .result ⟨link, loc⟩⟩ ∨
            w.pc = .sent (.result ⟨link, loc⟩) ∨
            w.pc = .dropped (.result ⟨link, loc⟩)))) := by
  refine ⟨fun ctx a heap loc hw => archive_ok_ok parse wayback ctx a heap hp hw, ?_⟩
  intro ctx0 src links acts s w hexec hw hl
  obtain ⟨h1, h2, h3⟩ := reach_worker parse wayback hexec hw
  refine ⟨h1, h2, ?_⟩
  rcases h3 with h3 | ⟨c, hc, hpc⟩
  · exact Or.inl h3
  · refine Or.inr ⟨c, ?_, ?_⟩
    · rw [hc, hl]; exact handoff_calls_ok parse wayback c hp
    · intro loc hwb
      have hh : handoff parse wayback c w.link =
          ⟨arc1, 2, [u], ⟨some 0, .result ⟨link, loc⟩⟩⟩ := by
        rw [hl]; exact archive_ok_ok parse wayback c {} 0 hp hwb
      rw [hh] at hpc
      exact hpc

/-- C4. For a link that `url.Parse` accepts as `u`: whenever `Wayback` returns
the error `e`, `archive` enters the hand-off that sends, on the channel
`Errors` returns, the error whose message is the link followed by
` -> archive: ` and the message of `e`; that message contains the link and
the message of `e`, and differs from every message of a parse failure of the
same link; and in every state of the program of `run` a goroutine for that
link whose call returned `e` stands in or behind the hand-off of exactly that
error on the errors channel `1`, never of a `Result`. -/
theorem archive_failure_offers_error (link : String) (u : URL) (hp : parse link = .ok u) :
    (∀ (ctx : Option GoError) (a : Archiver) (heap : Nat) (e : GoError),
      wayback ctx u = .error e →
      a.archive parse wayback ctx heap link =
        ⟨(a.init heap).1, (a.init heap).2, [u],
          ⟨(a.Errors heap).1, .error (Errorf (link ++ " -> archive: ") e)⟩⟩) ∧
    (∀ e : GoError,
      (Errorf (link ++ " -> archive: ") e).Error = link ++ " -> archive: " ++ e.Error ∧
      link.data <:+: (Errorf (link ++ " -> archive: ") e).Error.data ∧
      e.Error.data <:+: (Errorf (link ++ " -> archive: ") e).Error.data ∧
      ∀ e' : GoError,
        (Errorf (link ++ " -> archive: ") e).Error ≠ (Errorf (link ++ " -> parse: ") e').Error) ∧
    (∀ (ctx0 : Option GoError) (src : String) (links : List String) (acts : List Action)
        (s : System) (w : Worker),
      exec parse wayback (spawn ctx0 src links) acts = some s → w ∈ s.workers →
      w.link = link →
      (s.arc.Results s.heap).1 = some 0 ∧ (s.arc.Errors s.heap).1 = some 1 ∧
      ((w.pc = .spawned ∧ w.calls = []) ∨
        ∃ c : Option GoError, w.calls = [u] ∧ ∀ e : GoError, wayback c u = .error e →
          (w.pc = .select ⟨some 1, .error (Errorf (link ++ " -> archive: ") e)⟩ ∨
            w.pc = .blocked ⟨some 1, .error (Errorf (link ++ " -> archive: ") e)⟩ ∨
            w.pc = .sent (.error (Errorf (link ++ " -> archive: ") e)) ∨
            w.pc = .dropped (.error (Errorf (link ++ " -> archive: ") e))))) := by
  refine ⟨fun ctx a heap e hw => archive_ok_error parse wayback ctx a heap hp hw, ?_, ?_⟩
  · intro e
    refine ⟨rfl, ?_, ?_, ?_⟩
    · simp only [Errorf, GoError.Error, String.data_append, List.append_assoc]
      exact (List.prefix_append _ _).isInfix
    · simp only [Errorf, GoError.Error, String.data_append]
      exact (List.suffix_append _ _).isInfix
    · intro e' h
      have h2 := congrArg String.data h
      simp only [Errorf, GoError.Error, String.data_append, List.append_assoc,
        List.append_cancel_left_eq] at h2
      simp at h2
  · intro ctx0 src links acts s w hexec hw hl
    obtain ⟨h1, h2, h3⟩ := reach_worker parse wayback hexec hw
    refine ⟨h1, h2, ?_⟩
    rcases h3 with h3 | ⟨c, hc, hpc⟩
    · exact Or.inl h3
    · refine Or.inr ⟨c, ?_, ?_⟩
      · rw [hc, hl]; exact handoff_calls_ok parse wayback c hp
      · intro e hwb
        have hh : handoff parse wayback c w.link =
            ⟨arc1, 2, [u], ⟨some 1, .error (Errorf (link ++ " -> archive: ") e)⟩⟩ := by
          rw [hl]; exact archive_ok_error parse wayback c {} 0 hp hwb
        rw [hh] at hpc
        exact hpc

/-- C3. For a link that `url.Parse` rejects with `e`: `archive` makes no
`Wayback` call and enters the hand-off that sends, on the channel `Errors`
returns, the error whose message is the link followed by ` -> parse: ` and
the message of `e`; in every state of the program of `run` a goroutine for
that link has made no `Wayback` call and has either not run or stands in or
behind the hand-off of exactly that error on the errors channel `1`; and a
goroutine that has returned, delivered or not, is left as it is by every
move. -/
theorem archive_parse_failure (link : String) (e : GoError) (hp : parse link = .error e) :
    (∀ (ctx : Option GoError) (a : Archiver) (heap : Nat),
      a.archive parse wayback ctx heap link =
        ⟨(a.init heap).1, (a.init heap).2, [],
          ⟨(a.Errors heap).1, .error (Errorf (link ++ " -> parse: ") e)⟩⟩) ∧
    (Errorf (link ++ " -> parse: ") e).Error = link ++ " -> parse: " ++ e.Error ∧
    (∀ (ctx0 : Option GoError) (src : String) (links : List String) (acts : List Action)
        (s : System) (w : Worker),
      exec parse wayback (spawn ctx0 src links) acts = some s → w ∈ s.workers →
      w.link = link →
      (s.arc.Results s.heap).1 = some 0 ∧ (s.arc.Errors s.heap).1 = some 1 ∧
      w.calls = [] ∧
      (w.pc = .spawned ∨
        w.pc = .select ⟨some 1, .error (Errorf (link ++ " -> parse: ") e)⟩ ∨
        w.pc = .blocked ⟨some 1, .error (Errorf (link ++ " -> parse: ") e)⟩ ∨
        w.pc = .sent (.error (Errorf (link ++ " -> parse: ") e)) ∨
        w.pc = .dropped (.error (Errorf (link ++ " -> parse: ") e)))) ∧
    (∀ (s t : System) (a : Action) (k : Nat) (w : Worker),
      step parse wayback s a = some t → s.workers.get? k = some w →
      w.pc.sentOutcome.isSome ∨ w.pc.isDropped = true → t.workers.get? k = some w) := by
  refine ⟨fun ctx a heap => archive_error parse wayback ctx a heap hp, rfl, ?_,
    fun s t a k w h hk hpc => returned_stays parse wayback h hk hpc⟩
  intro ctx0 src links acts s w hexec hw hl
  obtain ⟨h1, h2, h3⟩ := reach_worker parse wayback hexec hw
  refine ⟨h1, h2, ?_⟩
  rcases h3 with h3 | ⟨c, hc, hpc⟩
  · exact ⟨h3.2, Or.inl h3.1⟩
  · have hh : handoff parse wayback c w.link =
        ⟨arc1, 2, [], ⟨some 1, .error (Errorf (link ++ " -> parse: ") e)⟩⟩ := by
      rw [hl]; exact archive_error parse wayback c {} 0 hp
    rw [hh] at hpc hc
    exact ⟨hc, Or.inr hpc⟩

/-- C2, at an explicit link. -/
theorem archive_success_offers_result_witness :
    Archiver.archive exampleParse exampleWayback none {} 0 "http://a.example" =
      ⟨⟨true, some 0, some 1⟩, 2, [⟨"http", "a.example", "", "", ""⟩],
        ⟨some 0, .result ⟨"http://a.example", "http://archive.example/a"⟩⟩⟩ :=
  (archive_success_offers_result exampleParse exampleWayback "http://a.example"
    ⟨"http", "a.example", "", "", ""⟩ rfl).1 none {} 0 "http://archive.example/a" rfl

/-- C4, at an explicit link that the remote service rejects. -/
theorem archive_failure_offers_error_witness :
    Archiver.archive exampleParse exampleWayback none {} 0 "http://b.example" =
        ⟨⟨true, some 0, some 1⟩, 2, [⟨"http", "b.example", "", "", ""⟩],
          ⟨some 1, .error (Errorf "http://b.example -> archive: " (errorsNew "remote rejected"))⟩⟩ ∧
      (Errorf "http://b.example -> archive: " (errorsNew "remote rejected")).Error =
        "http://b.example -> archive: remote rejected" :=
  ⟨(archive_failure_offers_error exampleParse exampleWayback "http://b.example"
      ⟨"http", "b.example", "", "", ""⟩ rfl).1 none {} 0 (errorsNew "remote rejected") rfl,
    rfl⟩

/-- C3, at an explicit link with a raw control character. -/
theorem archive_parse_failure_witness :
    Archiver.archive exampleParse exampleWayback none {} 0 "http://a.example/\tx" =
        ⟨⟨true, some 0, some 1⟩, 2, [],
          ⟨some 1, .error (Errorf "http://a.example/\tx -> parse: "
            (errorsNew "net/url: invalid control character in URL"))⟩⟩ ∧
      (Errorf "http://a.example/\tx -> parse: "
          (errorsNew "net/url: invalid control character in URL")).Error =
        "http://a.example/\tx -> parse: net/url: invalid control character in URL" :=
  ⟨(archive_parse_failure exampleParse exampleWayback "http://a.example/\tx"
      (errorsNew "net/url: invalid control character in URL") rfl).1 none {} 0,
    rfl⟩

end Moves

end Rchivelinks
